import Mathlib

/-!
# myCache: a verification development

A shallow embedding of the Go package `mycache` (files `cache.go`, `mycache.go`,
`http.go`) together with the collaborators it calls, and theorems about the read
path of a `Group` and about the HTTP peer pool.

Conventions of the embedding.

* A Go `string` and a Go `[]byte` are both lists of bytes (`GoString`).
* A Go `error` is its message; `nil` is `none`.
* A method with a pointer receiver returns the new value of the receiver next to
  its results.
* A Go `panic` is the `Outcome.panic` result.
* Every `Group` carries a ghost field `calls`, the sequence of calls it has made
  to its collaborators (local cache, peer picker, remote peer, user getter).
  No code reads it; it only lets the theorems speak about which calls happened.
-/

namespace mycache

/-! ## Go values -/

/-- One byte. -/
abbrev Byte := Fin 256

/-- A Go string, as its sequence of bytes. -/
abbrev GoString := List Byte

/-- The Go string written as an ASCII literal. -/
def lit (s : String) : GoString := s.data.map (fun c => Fin.ofNat c.toNat)

/-- A Go error value, identified with the message it carries. -/
abbrev GoError := GoString

/-- A Go map, as the list of its entries; a key occurs at most once in a map built
with `GoMap.set` from the empty one. -/
abbrev GoMap (κ ν : Type) := List (κ × ν)

/-- Reading a Go map, `m[k]`, with `none` for a key that is not in it. -/
def GoMap.get {κ ν : Type} [DecidableEq κ] (m : GoMap κ ν) (k : κ) : Option ν :=
  (m.find? (fun e => decide (e.1 = k))).map Prod.snd

/-- Writing a Go map, `m[k] = v`. -/
def GoMap.set {κ ν : Type} [DecidableEq κ] (m : GoMap κ ν) (k : κ) (v : ν) : GoMap κ ν :=
  match m with
  | [] => [(k, v)]
  | e :: rest => if e.1 = k then (k, v) :: rest else e :: GoMap.set rest k v

/-- The result of running Go code that may panic. -/
inductive Outcome (α : Type) where
  | ret (a : α)
  | panic (msg : GoString)
deriving DecidableEq, Repr

/-! ## ByteView (byteview.go) -/

/-- Modelled from the spec: byteview.go is not among the sources. A ByteView is an
immutable value slice; length and equality are defined over the byte content. -/
structure ByteView where
  b : List Byte
deriving DecidableEq, Repr

/-- Modelled from the spec: the length of the view is the length of its bytes. -/
def ByteView.Len (v : ByteView) : Int := (v.b.length : Int)

/-- Modelled from the spec: cloneBytes (byteview.go) returns a fresh copy, which for
immutable lists is the list itself. -/
def cloneBytes (b : List Byte) : List Byte := b

/-- Modelled from the spec: ByteSlice hands out a fresh copy of the content. -/
def ByteView.ByteSlice (v : ByteView) : List Byte := cloneBytes v.b

/-! ## The LRU store (package lru) -/

namespace lru

/-- Modelled from the spec: package lru is not among the sources. An entry is the
internal record of a key and its value. -/
structure entry where
  key : GoString
  value : ByteView
deriving DecidableEq, Repr

/-- Modelled from the spec: the size of an entry is len(key) + len(value.bytes). -/
def entry.size (e : entry) : Int := (e.key.length : Int) + e.value.Len

/-- Modelled from the spec: the LRU store, an ordered collection of entries with
the most recently used one at the head of `ll` and the least recently used one at
its end, configured with a maximum byte capacity. The eviction callback is left
out: cache.go always passes nil for it. -/
structure Cache where
  maxBytes : Int
  ll : List entry
deriving DecidableEq, Repr

/-- Modelled from the spec: total byte usage, the sum of the entry sizes. -/
def usage (ll : List entry) : Int := (ll.map entry.size).sum

/-- Modelled from the spec: a new, empty store of the given capacity. -/
def New (maxBytes : Int) : Cache := { maxBytes := maxBytes, ll := [] }

/-- Modelled from the spec: the eviction loop of Add. While the capacity is
positive and the usage exceeds it, the entry at the LRU end is removed. The first
argument bounds the number of iterations. -/
def evictLoop (maxBytes : Int) : Nat → List entry → List entry
  | 0, ll => ll
  | fuel + 1, ll =>
    if 0 < maxBytes ∧ maxBytes < usage ll then evictLoop maxBytes fuel ll.dropLast else ll

/-- Modelled from the spec: eviction after an insertion; one iteration per entry
is enough, since an empty store has usage 0. -/
def evict (maxBytes : Int) (ll : List entry) : List entry := evictLoop maxBytes ll.length ll

/-- Modelled from the spec: Get returns (value, true) and moves the entry to the
MRU end on a hit, and returns (_, false) on a miss. -/
def Cache.Get (c : Cache) (key : GoString) : Option ByteView × Cache :=
  match c.ll.find? (fun e => decide (e.key = key)) with
  | some e => (some e.value, { c with ll := e :: c.ll.eraseP (fun e => decide (e.key = key)) })
  | none => (none, c)

/-- Modelled from the spec: Add inserts or updates. An existing key has its value
replaced and its entry moved to the MRU end, a new key is inserted at the MRU end;
then entries are evicted from the LRU end until the usage is within the capacity
(if the capacity is positive). -/
def Cache.Add (c : Cache) (key : GoString) (value : ByteView) : Cache :=
  match c.ll.find? (fun e => decide (e.key = key)) with
  | some _ =>
    let moved : List entry :=
      { key := key, value := value } :: c.ll.eraseP (fun e => decide (e.key = key))
    { c with ll := evict c.maxBytes moved }
  | none => { c with ll := evict c.maxBytes ({ key := key, value := value } :: c.ll) }

/-- Modelled from the spec: Len is the number of entries currently held. -/
def Cache.Len (c : Cache) : Nat := c.ll.length

/-- The value stored under a key, without touching the recency order. -/
def Cache.peek (c : Cache) (key : GoString) : Option ByteView :=
  (c.ll.find? (fun e => decide (e.key = key))).map entry.value

end lru

/-! ## The concurrent cache wrapper (cache.go) -/

/-- The type `cache` of cache.go: a lazily created LRU store and its capacity. The
mutex is left out, the embedding runs one call at a time. -/
structure cache where
  lru : Option lru.Cache
  cacheBytes : Int
deriving DecidableEq, Repr

/-- The method `add` of cache.go. -/
def cache.add (c : cache) (key : GoString) (val : ByteView) : cache :=
  match c.lru with
  | none => { c with lru := some ((lru.New c.cacheBytes).Add key val) }
  | some l => { c with lru := some (l.Add key val) }

/-- The method `get` of cache.go: the results (val, ok) and the cache afterwards. -/
def cache.get (c : cache) (key : GoString) : (ByteView × Bool) × cache :=
  match c.lru with
  | none => (({ b := [] }, false), c)
  | some l =>
    match l.Get key with
    | (some ans, l1) => ((ans, true), { c with lru := some l1 })
    | (none, l1) => (({ b := [] }, false), { c with lru := some l1 })

/-- The value the cache holds for a key, if any, without touching the recency order. -/
def cache.peek (c : cache) (key : GoString) : Option ByteView :=
  match c.lru with
  | none => none
  | some l => l.peek key

/-- The capacity in force for a cache: that of its LRU store once the store exists,
and before that the capacity the store will be created with. -/
def cache.capacity (c : cache) : Int :=
  match c.lru with
  | none => c.cacheBytes
  | some l => l.maxBytes

/-! ## Peers (peers.go, package mycachepb) -/

/-- Modelled from the spec: the request record of package mycachepb, two string
fields, group and key. -/
structure Request where
  Group : GoString
  Key : GoString
deriving DecidableEq, Repr

/-- Modelled from the spec: the response record of package mycachepb, one bytes
field, value. -/
structure Response where
  Value : List Byte
deriving DecidableEq, Repr

/-- Modelled from the spec: the capability PeerGetter of peers.go,
`Get(request, responseOut) → error`. The function gets the request and the
response record to fill, and returns the record afterwards and the error. -/
structure PeerGetter where
  Get : Request → Response → Response × Option GoError

/-- Modelled from the spec: the capability PeerPicker of peers.go,
`PickPeer(key) → (PeerGetter, ok)`; a nil PeerGetter is `none`. -/
structure PeerPicker where
  PickPeer : GoString → Option PeerGetter × Bool

/-! ## Groups (mycache.go) -/

/-- The interface `Getter` of mycache.go (and `GetterFunc`): the user callback
that yields the source data of a key. -/
abbrev Getter := GoString → List Byte × Option GoError

/-- A call made by a group to one of its collaborators. -/
inductive Event where
  | cacheGet (key : GoString)
  | cacheAdd (key : GoString) (value : ByteView)
  | pickPeer (key : GoString)
  | peerGet (req : Request)
  | getterGet (key : GoString)
deriving DecidableEq, Repr

/-- The type `Group` of mycache.go. `peers` is `none` while no picker is
registered. The single-flight coalescer holds no state between calls and is left
out; `calls` is the ghost record of the calls made so far. -/
structure Group where
  name : GoString
  getter : Getter
  mainCache : cache
  peers : Option PeerPicker
  calls : List Event

/-- Append one call to the ghost record. -/
def Group.record (g : Group) (e : Event) : Group := { g with calls := g.calls ++ [e] }

/-- Modelled from the spec: `Do(key, fn)` of package singleflight, entered while no
call is in flight for the key (which is always so with one caller at a time): it
marks one in flight, invokes fn, removes the record and returns the outcome of fn. -/
def singleflight.Do {α : Type} (_key : GoString) (fn : Unit → α) : α := fn ()

/-- The method `getFromPeer` of mycache.go. -/
def Group.getFromPeer (g : Group) (peer : PeerGetter) (key : GoString) :
    (ByteView × Option GoError) × Group :=
  let req : Request := { Group := g.name, Key := key }
  let res : Response := { Value := [] }
  match peer.Get req res with
  | (_, some err) => (({ b := [] }, some err), g.record (Event.peerGet req))
  | (res1, none) => (({ b := res1.Value }, none), g.record (Event.peerGet req))

/-- The method `populateCache` of mycache.go. -/
def Group.populateCache (g : Group) (key : GoString) (value : ByteView) : Group :=
  { g with mainCache := g.mainCache.add key value,
           calls := g.calls ++ [Event.cacheAdd key value] }

/-- The method `getLocally` of mycache.go. -/
def Group.getLocally (g : Group) (key : GoString) : (ByteView × Option GoError) × Group :=
  match g.getter key with
  | (_, some err) => (({ b := [] }, some err), g.record (Event.getterGet key))
  | (bytes, none) =>
    let value : ByteView := { b := cloneBytes bytes }
    ((value, none), (g.record (Event.getterGet key)).populateCache key value)

/-- The function literal that `load` passes to the single-flight coalescer. Its
results are the pair it returns, and the named result `value` of `load`, which it
assigns when it asks a peer. -/
def Group.loadFn (g : Group) (key : GoString) (_ : Unit) :
    Outcome ((ByteView × Option GoError) × ByteView) × Group :=
  match g.peers with
  | some peers =>
    match peers.PickPeer key with
    | (some peer, true) =>
      match (g.record (Event.pickPeer key)).getFromPeer peer key with
      | ((value, none), g2) => (Outcome.ret ((value, none), value), g2)
      | ((value, some _), g2) =>
        match g2.getLocally key with
        | (r, g3) => (Outcome.ret (r, value), g3)
    | (none, true) =>
      (Outcome.panic (lit "runtime error: invalid memory address or nil pointer dereference"),
        g.record (Event.pickPeer key))
    | (_, false) =>
      match (g.record (Event.pickPeer key)).getLocally key with
      | (r, g2) => (Outcome.ret (r, { b := [] }), g2)
  | none =>
    match g.getLocally key with
    | (r, g1) => (Outcome.ret (r, { b := [] }), g1)

/-- The method `load` of mycache.go. -/
def Group.load (g : Group) (key : GoString) : Outcome (ByteView × Option GoError) × Group :=
  match singleflight.Do key (g.loadFn key) with
  | (Outcome.panic msg, g1) => (Outcome.panic msg, g1)
  | (Outcome.ret ((viewi, none), _), g1) => (Outcome.ret (viewi, none), g1)
  | (Outcome.ret ((_, some err), value), g1) => (Outcome.ret (value, some err), g1)

/-- The method `Get` of mycache.go. -/
def Group.Get (g : Group) (key : GoString) : Outcome (ByteView × Option GoError) × Group :=
  if key = [] then
    (Outcome.ret ({ b := [] }, some (lit "key is required")), g)
  else
    match g.mainCache.get key with
    | ((v, true), c) => (Outcome.ret (v, none), { g.record (Event.cacheGet key) with mainCache := c })
    | ((_, false), c) => ({ g.record (Event.cacheGet key) with mainCache := c }).load key

/-- The state of a group after a sequence of `Get` calls, one per key of the list. -/
def Group.Gets (g : Group) : List GoString → Group
  | [] => g
  | k :: ks => Group.Gets (g.Get k).2 ks

/-- The number of times the user getter has been invoked for a key. -/
def Group.loaderCount (g : Group) (key : GoString) : Nat :=
  g.calls.count (Event.getterGet key)

/-- The registry `groups` of mycache.go, from group names to groups. A group is
stored by value: the registry entry is the one copy of the state of a group. -/
abbrev Registry := GoMap GoString Group

/-- The function `NewGroup` of mycache.go; a nil getter is `none`. The results are
the new group and the registry afterwards. -/
def NewGroup (groups : Registry) (name : GoString) (cacheBytes : Int) (getter : Option Getter) :
    Outcome (Group × Registry) :=
  match getter with
  | none => Outcome.panic (lit "nil Getter")
  | some f =>
    let g : Group :=
      { name := name, getter := f, mainCache := { lru := none, cacheBytes := cacheBytes },
        peers := none, calls := [] }
    Outcome.ret (g, groups.set name g)

/-- The method `RegisterPeers` of mycache.go. -/
def Group.RegisterPeers (g : Group) (peers : PeerPicker) : Outcome Group :=
  match g.peers with
  | some _ => Outcome.panic (lit "RegisterPeerPicker called more than once")
  | none => Outcome.ret { g with peers := some peers }

/-- The function `GetGroup` of mycache.go. -/
def GetGroup (groups : Registry) (name : GoString) : Option Group := groups.get name

/-! ## The consistent-hash ring (package consistenthash) -/

/-- The function `strconv.Itoa` on a number that is not negative: its decimal digits. -/
def strconv.Itoa (i : Nat) : GoString := (Nat.toDigits 10 i).map (fun c => Fin.ofNat c.toNat)

namespace consistenthash

/-- Modelled from the spec: a hash function of the ring, from bytes to a number. -/
abbrev Hash := GoString → Nat

/-- Modelled from the spec: package consistenthash is not among the sources. The
ring: its configuration (replica count and hash function) and its state (the
vector of hash slots and the map from a slot to a peer id). -/
structure Map where
  hash : Hash
  replicas : Int
  keys : List Nat
  hashMap : GoMap Nat GoString

/-- Modelled from the spec: a new, empty ring. A nil hash function stands for the
default one, CRC32/IEEE, which is the first argument here. -/
def New (ChecksumIEEE : Hash) (replicas : Int) (fn : Option Hash) : Map :=
  { hash := match fn with
      | some f => f
      | none => ChecksumIEEE,
    replicas := replicas, keys := [], hashMap := [] }

/-- Modelled from the spec: the slot of replica i of a peer,
hash(concat(decimal(i), p)), is recorded with its peer. -/
def Map.addReplica (m : Map) (peer : GoString) (i : Nat) : Map :=
  { m with keys := m.keys ++ [m.hash (strconv.Itoa i ++ peer)],
           hashMap := m.hashMap.set (m.hash (strconv.Itoa i ++ peer)) peer }

/-- Modelled from the spec: the slots of one peer, for each i in [0, R). -/
def Map.addPeer (m : Map) (peer : GoString) : Map :=
  (List.range m.replicas.toNat).foldl (fun m1 i => m1.addReplica peer i) m

/-- Modelled from the spec: Add records the slots of each peer id and then keeps
the slot vector sorted ascending. -/
def Map.Add (m : Map) (peerIds : List GoString) : Map :=
  { peerIds.foldl Map.addPeer m with
    keys := (peerIds.foldl Map.addPeer m).keys.insertionSort (fun a b => a ≤ b) }

/-- Modelled from the spec: Get returns the peer id whose slot is the smallest slot
that is at least hash(key), wrapping around to the slot at index 0 when there is
none, and the empty string if no peers are registered. -/
def Map.Get (m : Map) (key : GoString) : GoString :=
  if m.keys.length = 0 then []
  else
    match m.keys.find? (fun slot => decide (m.hash key ≤ slot)) with
    | some slot => (m.hashMap.get slot).getD []
    | none => (m.hashMap.get (m.keys.headD 0)).getD []

/-- The slots of one peer on a ring: hash(concat(decimal(i), peer)) for each i in
[0, R), in the order of i. -/
def slots (hash : Hash) (replicas : Int) (peer : GoString) : List Nat :=
  (List.range replicas.toNat).map (fun i => hash (strconv.Itoa i ++ peer))

/-- Every slot of the ring is recorded with a peer id, and every peer id recorded
is one of the given list. -/
def Map.ownedBy (m : Map) (peerIds : List GoString) : Prop :=
  (∀ slot x, m.hashMap.get slot = some x → x ∈ peerIds)
    ∧ ∀ slot, slot ∈ m.keys → ∃ peer, m.hashMap.get slot = some peer

end consistenthash

/-! ## Go library functions used by http.go -/

/-- The function `strings.HasPrefix`. -/
def strings.HasPrefix (s pre : GoString) : Bool := pre.isPrefixOf s

/-- The function `strings.Index`: the index of the first instance of sep in s. -/
def strings.Index (s sep : GoString) : Option Nat :=
  if sep.isPrefixOf s then some 0
  else
    match s with
    | [] => none
    | _ :: rest => (strings.Index rest sep).map (fun i => i + 1)

/-- The function `strings.SplitN` for a separator that is not empty and a count n
that is not negative: at most n substrings, the last one the unsplit remainder. -/
def strings.SplitN (s sep : GoString) : Nat → List GoString
  | 0 => []
  | 1 => [s]
  | n + 2 =>
    match strings.Index s sep with
    | none => [s]
    | some m => s.take m :: strings.SplitN (s.drop (m + sep.length)) sep (n + 1)

/-- The digit of `url.QueryEscape` for a number below 16, from "0123456789ABCDEF". -/
def url.upperhex (n : Nat) : Byte := if n < 10 then Fin.ofNat (48 + n) else Fin.ofNat (55 + n)

/-- Whether `url.QueryEscape` leaves the byte as it is: the letters, the digits and
the four marks - _ . ~ are the unreserved bytes. -/
def url.unreserved (c : Byte) : Bool :=
  (97 ≤ c.val && c.val ≤ 122) || (65 ≤ c.val && c.val ≤ 90) || (48 ≤ c.val && c.val ≤ 57)
    || c.val = 45 || c.val = 95 || c.val = 46 || c.val = 126

/-- The function `url.QueryEscape`: a space becomes '+', an unreserved byte stays,
every other byte c becomes '%' and the two hex digits of c. -/
def url.QueryEscape : GoString → GoString
  | [] => []
  | c :: rest =>
    if c.val = 32 then (43 : Byte) :: url.QueryEscape rest
    else if url.unreserved c then c :: url.QueryEscape rest
    else (37 : Byte) :: url.upperhex (c.val / 16) :: url.upperhex (c.val % 16)
      :: url.QueryEscape rest

/-- Whether a byte is a hex digit (the function `ishex` of net/url). -/
def url.ishex (c : Byte) : Bool :=
  (48 ≤ c.val && c.val ≤ 57) || (97 ≤ c.val && c.val ≤ 102) || (65 ≤ c.val && c.val ≤ 70)

/-- The value of a hex digit (the function `unhex` of net/url). -/
def url.unhex (c : Byte) : Nat :=
  if 48 ≤ c.val ∧ c.val ≤ 57 then c.val - 48
  else if 97 ≤ c.val ∧ c.val ≤ 102 then c.val - 97 + 10
  else if 65 ≤ c.val ∧ c.val ≤ 70 then c.val - 65 + 10
  else 0

/-- The decoding by which net/url turns the path of a request target into the field
`URL.Path`: '%' and two hex digits become the byte they stand for, every other byte
(the '+' too) stays; a '%' that is not followed by two hex digits is an error. -/
def url.unescapePath : GoString → Option GoString
  | [] => some []
  | c :: rest =>
    if c.val = 37 then
      match rest with
      | a :: b :: rest2 =>
        if url.ishex a && url.ishex b then
          (url.unescapePath rest2).map
            (fun t => (Fin.ofNat (url.unhex a * 16 + url.unhex b) : Byte) :: t)
        else none
      | _ => none
    else (url.unescapePath rest).map (fun t => c :: t)

/-- The string with every space replaced by '+'. -/
def url.spacesToPlus : GoString → GoString
  | [] => []
  | c :: rest => (if c.val = 32 then (43 : Byte) else c) :: url.spacesToPlus rest

/-- The number n in base 128, low digits first, each digit but the last with the
high bit set (a protocol-buffer varint); ten digits hold any 64-bit number. -/
def proto.varint : Nat → Nat → List Byte
  | 0, _ => []
  | fuel + 1, n =>
    if n < 128 then [Fin.ofNat n] else Fin.ofNat (n % 128 + 128) :: proto.varint fuel (n / 128)

/-- Modelled from the spec: the serialization of the response record, the
protocol-buffer wire format with field 1 = bytes: nothing for an empty value, else
the tag 0x0A, the length as a varint, and the bytes. It never fails. -/
def proto.Marshal (m : Response) : List Byte × Option GoError :=
  if m.Value = [] then ([], none)
  else ((10 : Byte) :: proto.varint 10 m.Value.length ++ m.Value, none)

/-! ## The HTTP pool (http.go) -/

/-- The constant `defaultBasePath` of http.go. -/
def defaultBasePath : GoString := lit "/_mycache/"

/-- The constant `defaultReplicas` of http.go. -/
def defaultReplicas : Int := 50

/-- The type `httpGetter` of http.go. -/
structure httpGetter where
  baseURL : GoString
deriving DecidableEq, Repr

/-- The type `HTTPPool` of http.go. `peers` is `none` for the nil pointer; the nil
map `httpGetters` reads as the empty map. The mutex is left out. -/
structure HTTPPool where
  self : GoString
  basePath : GoString
  peers : Option consistenthash.Map
  httpGetters : GoMap GoString httpGetter

/-- The function `NewHTTPPool` of http.go. -/
def NewHTTPPool (self : GoString) : HTTPPool :=
  { self := self, basePath := defaultBasePath, peers := none, httpGetters := [] }

/-- The method `Set` of http.go. The first argument is the default hash of the
ring, CRC32/IEEE. -/
def HTTPPool.Set (ChecksumIEEE : consistenthash.Hash) (p : HTTPPool) (peerIPs : List GoString) :
    HTTPPool :=
  { p with
    peers := some ((consistenthash.New ChecksumIEEE defaultReplicas none).Add peerIPs),
    httpGetters :=
      peerIPs.foldl (fun m peer => m.set peer { baseURL := peer ++ p.basePath }) [] }

/-- The method `PickPeer` of http.go; the getter returned is `none` when the map
has no entry for the peer. On a pool whose ring is the nil pointer (Set never
called) reading the ring panics. -/
def HTTPPool.PickPeer (p : HTTPPool) (key : GoString) : Outcome (Option httpGetter × Bool) :=
  match p.peers with
  | none => Outcome.panic (lit "runtime error: invalid memory address or nil pointer dereference")
  | some ring =>
    if ring.Get key ≠ [] ∧ ring.Get key ≠ p.self then
      Outcome.ret (p.httpGetters.get (ring.Get key), true)
    else Outcome.ret (none, false)

/-- What the handler reads of a request: `r.Method` and `r.URL.Path`. -/
structure HTTPRequest where
  Method : GoString
  Path : GoString
deriving DecidableEq, Repr

/-- What the handler writes: the status code, the content type and the body. -/
structure HTTPResponse where
  status : Nat
  contentType : GoString
  body : List Byte
deriving DecidableEq, Repr

/-- The function `http.Error`: a plain-text reply with the given code, whose body
is the message and a newline. -/
def http.Error (msg : GoString) (code : Nat) : HTTPResponse :=
  { status := code, contentType := lit "text/plain; charset=utf-8", body := msg ++ [10] }

/-- The substrings `parts` that ServeHTTP cuts the request path into. -/
def HTTPPool.pathParts (p : HTTPPool) (path : GoString) : List GoString :=
  strings.SplitN (path.drop p.basePath.length) (lit "/") 2

/-- The method `ServeHTTP` of http.go: the reply and the registry afterwards. -/
def HTTPPool.ServeHTTP (p : HTTPPool) (groups : Registry) (r : HTTPRequest) :
    Outcome HTTPResponse × Registry :=
  if !strings.HasPrefix r.Path p.basePath then
    (Outcome.panic (lit "HTTPPool serving unexpected path: " ++ r.Path), groups)
  else
    match p.pathParts r.Path with
    | [groupName, key] =>
      match GetGroup groups groupName with
      | none => (Outcome.ret (http.Error (lit "no such group: " ++ groupName) 404), groups)
      | some group =>
        match group.Get key with
        | (Outcome.panic msg, group1) => (Outcome.panic msg, groups.set groupName group1)
        | (Outcome.ret (view, _), group1) =>
          match proto.Marshal { Value := view.ByteSlice } with
          | (_, some err) => (Outcome.ret (http.Error err 500), groups.set groupName group1)
          | (body, none) =>
            (Outcome.ret { status := 200, contentType := lit "application/octet-stream",
                           body := body },
              groups.set groupName group1)
    | _ => (Outcome.ret (http.Error (lit "bad request") 400), groups)

/-- The URL that the method `Get` of `httpGetter` asks for:
Sprintf("%v%v/%v", baseURL, QueryEscape(group), QueryEscape(key)). -/
def httpGetter.requestURL (h : httpGetter) (req : Request) : GoString :=
  h.baseURL ++ url.QueryEscape req.Group ++ lit "/" ++ url.QueryEscape req.Key

/-- The method `Get` of `httpGetter`. The network is the first argument: what
`http.Get` yields for a URL, an error or a status code, status line and body; the
second is the decoder `proto.Unmarshal`. -/
def httpGetter.Get (httpGet : GoString → Except GoError (Nat × GoString × List Byte))
    (unmarshal : List Byte → Response → Response × Option GoError)
    (h : httpGetter) (req : Request) (out : Response) : Response × Option GoError :=
  match httpGet (h.requestURL req) with
  | Except.error err => (out, some err)
  | Except.ok (statusCode, status, body) =>
    if statusCode ≠ 200 then (out, some (lit "server returned: " ++ status))
    else
      match unmarshal body out with
      | (out1, some err) => (out1, some (lit "decoding response body: " ++ err))
      | (out1, none) => (out1, none)

/-- The path that the server of a peer finds in `r.URL.Path` when a client asks for
a URL made of the peer id (scheme, host and port) and a request target: the target,
decoded by net/url. -/
def serverPath (peer u : GoString) : Option GoString :=
  if peer.isPrefixOf u then url.unescapePath (u.drop peer.length) else none

/-- What ServeHTTP of the pool p cuts out of the request that a client built for a
group name and a key and sent to the peer: `none` if the request target does not
decode. -/
def serverParts (p : HTTPPool) (peer g k : GoString) : Option (List GoString) :=
  (serverPath peer
    (httpGetter.requestURL { baseURL := peer ++ p.basePath } { Group := g, Key := k })).map
      p.pathParts

/-! ## The sample set-up of test/main.go -/

/-- The getter of `createGroup` in test/main.go, over the table `db`. -/
def dbGetter : Getter := fun key =>
  if key = lit "Tom" then (lit "630", none)
  else if key = lit "Jack" then (lit "589", none)
  else if key = lit "Sam" then (lit "567", none)
  else ([], some (key ++ lit " not exist"))

/-- The group that `createGroup` of test/main.go makes: name "scores", capacity
2<<10 bytes, no peers registered. -/
def scoresGroup : Group :=
  { name := lit "scores", getter := dbGetter,
    mainCache := { lru := none, cacheBytes := 2048 }, peers := none, calls := [] }

/-- A remote peer that answers every request with the value "42". -/
def peer42 : PeerGetter := { Get := fun _ _ => ({ Value := lit "42" }, none) }

/-- A remote peer that cannot be reached. -/
def peerDown : PeerGetter :=
  { Get := fun _ res => (res, some (lit "server returned: 404 Not Found")) }

/-- The group `scoresGroup` with a picker that sends every key to `peer42`. -/
def scoresWithPeer42 : Group :=
  { scoresGroup with peers := some { PickPeer := fun _ => (some peer42, true) } }

/-- The group `scoresGroup` with a picker that sends every key to `peerDown`. -/
def scoresWithPeerDown : Group :=
  { scoresGroup with peers := some { PickPeer := fun _ => (some peerDown, true) } }

/-- The group `scoresGroup` with a picker that keeps every key on this node. -/
def scoresSelfOwned : Group :=
  { scoresGroup with peers := some { PickPeer := fun _ => (none, false) } }

/-- The registry of a process that has run `createGroup` of test/main.go once. -/
def scoresRegistry : Registry := [(lit "scores", scoresGroup)]

/-- The HTTP pool of the node "http://localhost:8001", as `NewHTTPPool` makes it. -/
def pool8001 : HTTPPool := NewHTTPPool (lit "http://localhost:8001")

/-- A small hash function that stands in for CRC32 in the examples. -/
def toyHash : consistenthash.Hash :=
  fun s => (s.foldl (fun h c => (h * 31 + c.val) % 65536) 0) * 40503 % 65536

/-- The HTTP pool of the node "http://localhost:8001" after `Set` with two nodes,
over the ring hashed with `toyHash`. -/
def samplePool : HTTPPool :=
  pool8001.Set toyHash [lit "http://localhost:8001", lit "http://localhost:8002"]

/-! ## Lemmas on the LRU store and the cache wrapper -/

namespace lru

theorem entry_size_nonneg (e : entry) : 0 ≤ e.size := by
  unfold entry.size ByteView.Len
  omega

theorem usage_nonneg (ll : List entry) : 0 ≤ usage ll := by
  induction ll with
  | nil => simp [usage]
  | cons e rest ih =>
    have h := entry_size_nonneg e
    simp only [usage, List.map_cons, List.sum_cons] at ih ⊢
    omega

theorem evictLoop_eq_take (maxBytes : Int) (fuel : Nat) (ll : List entry) :
    ∃ n, evictLoop maxBytes fuel ll = ll.take n := by
  induction fuel generalizing ll with
  | zero => exact ⟨ll.length, by simp [evictLoop]⟩
  | succ fuel ih =>
    unfold evictLoop
    split
    · obtain ⟨n, hn⟩ := ih ll.dropLast
      refine ⟨min n (ll.length - 1), ?_⟩
      rw [hn, List.dropLast_eq_take, List.take_take]
    · exact ⟨ll.length, by simp⟩

theorem evict_eq_take (maxBytes : Int) (ll : List entry) :
    ∃ n, evict maxBytes ll = ll.take n :=
  evictLoop_eq_take maxBytes ll.length ll

/-- When the loop ends, the store is within its capacity (or the capacity is not
positive): the bound on the iterations is never what stops it. -/
theorem evictLoop_done (maxBytes : Int) (fuel : Nat) (ll : List entry) (h : ll.length ≤ fuel) :
    ¬ (0 < maxBytes ∧ maxBytes < usage (evictLoop maxBytes fuel ll)) := by
  induction fuel generalizing ll with
  | zero =>
    have : ll = [] := List.length_eq_zero.mp (Nat.le_zero.mp h)
    subst this
    simp [evictLoop, usage]
    intro h1
    omega
  | succ fuel ih =>
    unfold evictLoop
    split
    · apply ih
      rw [List.length_dropLast]
      omega
    · assumption

theorem find?_take_some {α : Type} (p : α → Bool) (l : List α) (n : Nat) (x : α)
    (h : (l.take n).find? p = some x) : l.find? p = some x := by
  induction l generalizing n with
  | nil => simp at h
  | cons a l ih =>
    cases n with
    | zero => simp at h
    | succ n =>
      rw [List.take_succ_cons, List.find?_cons] at h
      rw [List.find?_cons]
      cases hp : p a with
      | true => simpa [hp] using h
      | false =>
        rw [hp] at h
        exact ih n h

theorem find?_eraseP_ne (a b : GoString) (hab : a ≠ b) (l : List entry) :
    (l.eraseP (fun e => decide (e.key = b))).find? (fun e => decide (e.key = a))
      = l.find? (fun e => decide (e.key = a)) := by
  induction l with
  | nil => rfl
  | cons e l ih =>
    by_cases hb : e.key = b
    · have hba : ¬ (b = a) := fun h => hab h.symm
      simp [List.eraseP_cons, hb, hba, List.find?_cons]
    · simp [List.eraseP_cons, hb, List.find?_cons, ih]

/-- A hit leaves the value stored under every key as it was. -/
theorem store_peek_Get (c : Cache) (k key : GoString) : (c.Get k).2.peek key = c.peek key := by
  unfold Cache.Get Cache.peek
  cases hf : c.ll.find? (fun e => decide (e.key = k)) with
  | none => rfl
  | some e =>
    have hek : e.key = k := by simpa using List.find?_some hf
    by_cases hk : key = k
    · subst hk
      simp [List.find?_cons, hek, hf]
    · have hne : e.key ≠ key := fun h => hk (h.symm.trans hek)
      simp [List.find?_cons, hne, find?_eraseP_ne key k hk]

/-- The result of Get is the stored value. -/
theorem store_Get_fst (c : Cache) (k : GoString) : (c.Get k).1 = c.peek k := by
  unfold Cache.Get Cache.peek
  cases hf : c.ll.find? (fun e => decide (e.key = k)) <;> rfl

/-- A miss leaves the store as it was. -/
theorem store_Get_miss (c : Cache) (k : GoString) (h : c.peek k = none) : c.Get k = (none, c) := by
  unfold Cache.peek at h
  unfold Cache.Get
  cases hf : c.ll.find? (fun e => decide (e.key = k)) with
  | none => rfl
  | some e => simp [hf] at h

/-- The list that Add hands to the eviction loop. -/
theorem store_Add_ll (c : Cache) (k : GoString) (v : ByteView) :
    (c.Add k v).ll
      = evict c.maxBytes ({ key := k, value := v } :: c.ll.eraseP (fun e => decide (e.key = k))) := by
  unfold Cache.Add
  cases hf : c.ll.find? (fun e => decide (e.key = k)) with
  | some e => rfl
  | none =>
    have : c.ll.eraseP (fun e => decide (e.key = k)) = c.ll := by
      apply List.eraseP_of_forall_not
      intro e he
      have := List.find?_eq_none.mp hf e he
      simpa using this
    simp [this]

/-- After Add k v, a value found under a key is v when the key is k, and otherwise
the value that was stored before. -/
theorem store_peek_Add (c : Cache) (k key : GoString) (v x : ByteView)
    (h : (c.Add k v).peek key = some x) :
    (key = k ∧ x = v) ∨ (key ≠ k ∧ c.peek key = some x) := by
  unfold Cache.peek at h
  rw [store_Add_ll] at h
  obtain ⟨n, hn⟩ := evict_eq_take c.maxBytes
    ({ key := k, value := v } :: c.ll.eraseP (fun e => decide (e.key = k)))
  rw [hn] at h
  obtain ⟨e, he, hex⟩ := Option.map_eq_some'.mp h
  have h2 := find?_take_some _ _ _ _ he
  by_cases hk : key = k
  · left
    subst hk
    simp [List.find?_cons] at h2
    subst h2
    exact ⟨rfl, hex.symm⟩
  · right
    refine ⟨hk, ?_⟩
    have hne : ¬ (k = key) := fun h => hk h.symm
    simp only [List.find?_cons, hne, decide_False] at h2
    rw [find?_eraseP_ne key k hk] at h2
    unfold Cache.peek
    rw [h2]
    simp [hex]

end lru

theorem cache.get_miss (c : cache) (k : GoString) (h : c.peek k = none) :
    c.get k = (({ b := [] }, false), c) := by
  unfold cache.peek at h
  unfold cache.get
  cases hl : c.lru with
  | none => rfl
  | some l =>
    rw [hl] at h
    simp only [lru.store_Get_miss l k h]
    cases c
    simp_all

theorem cache.get_hit (c : cache) (k : GoString) (v : ByteView) (h : c.peek k = some v) :
    (c.get k).1 = (v, true) := by
  unfold cache.peek at h
  unfold cache.get
  cases hl : c.lru with
  | none => simp [hl] at h
  | some l =>
    rw [hl] at h
    simp only at h
    have h1 := lru.store_Get_fst l k
    rw [h] at h1
    dsimp only
    generalize l.Get k = r at h1 ⊢
    obtain ⟨r1, l1⟩ := r
    simp only at h1
    subst h1
    rfl

theorem cache.peek_get (c : cache) (k key : GoString) : (c.get k).2.peek key = c.peek key := by
  unfold cache.get cache.peek
  cases hl : c.lru with
  | none => simp [hl]
  | some l =>
    have h1 := lru.store_peek_Get l k key
    dsimp only
    generalize l.Get k = r at h1 ⊢
    obtain ⟨r1, l1⟩ := r
    cases r1 <;> simpa using h1

theorem cache.peek_add (c : cache) (k key : GoString) (v x : ByteView)
    (h : (c.add k v).peek key = some x) :
    (key = k ∧ x = v) ∨ (key ≠ k ∧ c.peek key = some x) := by
  unfold cache.add cache.peek at h
  cases hl : c.lru with
  | none =>
    rw [hl] at h
    rcases lru.store_peek_Add _ k key v x h with h1 | ⟨_, h2⟩
    · exact Or.inl h1
    · simp [lru.Cache.peek, lru.New] at h2
  | some l =>
    rw [hl] at h
    rcases lru.store_peek_Add _ k key v x h with h1 | ⟨h2, h3⟩
    · exact Or.inl h1
    · right
      refine ⟨h2, ?_⟩
      unfold cache.peek
      rw [hl]
      exact h3

namespace lru

theorem evictLoop_keeps_head (m : Int) (fuel : Nat) (e : entry) (rest : List entry)
    (h : m ≤ 0 ∨ e.size ≤ m) : ∃ r, evictLoop m fuel (e :: rest) = e :: r := by
  induction fuel generalizing rest with
  | zero => exact ⟨rest, rfl⟩
  | succ fuel ih =>
    unfold evictLoop
    split
    · rename_i hcond
      cases rest with
      | nil =>
        exfalso
        simp [usage] at hcond
        omega
      | cons a t =>
        have hd : (e :: a :: t).dropLast = e :: (a :: t).dropLast := by simp [List.dropLast]
        rw [hd]
        exact ih _
    · exact ⟨rest, rfl⟩

theorem evictLoop_unbounded (m : Int) (fuel : Nat) (ll : List entry) (h : m ≤ 0) :
    evictLoop m fuel ll = ll := by
  cases fuel with
  | zero => rfl
  | succ fuel =>
    unfold evictLoop
    rw [if_neg]
    intro hc
    omega

/-- An entry that fits in the store is there after Add. -/
theorem store_peek_Add_self (c : Cache) (k : GoString) (v : ByteView)
    (h : c.maxBytes ≤ 0 ∨ (k.length : Int) + (v.b.length : Int) ≤ c.maxBytes) :
    (c.Add k v).peek k = some v := by
  unfold Cache.peek
  rw [store_Add_ll]
  obtain ⟨r, hr⟩ := evictLoop_keeps_head c.maxBytes
    ({ key := k, value := v } :: c.ll.eraseP (fun e => decide (e.key = k))).length
    { key := k, value := v } (c.ll.eraseP (fun e => decide (e.key = k))) h
  unfold evict
  rw [hr]
  simp [List.find?_cons]

theorem store_Add_maxBytes (c : Cache) (k : GoString) (v : ByteView) :
    (c.Add k v).maxBytes = c.maxBytes := by
  unfold Cache.Add
  split <;> rfl

theorem store_Get_maxBytes (c : Cache) (k : GoString) : (c.Get k).2.maxBytes = c.maxBytes := by
  unfold Cache.Get
  split <;> rfl

/-- On a store without a bound, Add leaves the entries of the other keys alone. -/
theorem store_peek_Add_unbounded (c : Cache) (k key : GoString) (v : ByteView)
    (h : c.maxBytes ≤ 0) (hne : key ≠ k) : (c.Add k v).peek key = c.peek key := by
  unfold Cache.peek
  rw [store_Add_ll]
  unfold evict
  rw [evictLoop_unbounded _ _ _ h]
  have hk : ¬ (k = key) := fun h => hne h.symm
  simp only [List.find?_cons, hk, decide_False]
  rw [find?_eraseP_ne key k hne]

end lru

theorem cache.peek_add_self (c : cache) (k : GoString) (v : ByteView)
    (h : c.capacity ≤ 0 ∨ (k.length : Int) + (v.b.length : Int) ≤ c.capacity) :
    (c.add k v).peek k = some v := by
  unfold cache.capacity at h
  unfold cache.add cache.peek
  cases hl : c.lru with
  | none =>
    rw [hl] at h
    exact lru.store_peek_Add_self (lru.New c.cacheBytes) k v h
  | some l =>
    rw [hl] at h
    exact lru.store_peek_Add_self l k v h

theorem cache.capacity_add (c : cache) (k : GoString) (v : ByteView) :
    (c.add k v).capacity = c.capacity := by
  unfold cache.add cache.capacity
  cases hl : c.lru with
  | none => exact lru.store_Add_maxBytes (lru.New c.cacheBytes) k v
  | some l => exact lru.store_Add_maxBytes l k v

theorem cache.capacity_get (c : cache) (k : GoString) : (c.get k).2.capacity = c.capacity := by
  unfold cache.get cache.capacity
  cases hl : c.lru with
  | none => simp [hl]
  | some l =>
    have h1 := lru.store_Get_maxBytes l k
    dsimp only
    generalize l.Get k = r at h1 ⊢
    obtain ⟨r1, l1⟩ := r
    cases r1 <;> simpa using h1

theorem cache.peek_add_unbounded (c : cache) (k key : GoString) (v : ByteView)
    (h : c.capacity ≤ 0) (hne : key ≠ k) : (c.add k v).peek key = c.peek key := by
  unfold cache.capacity at h
  unfold cache.add cache.peek
  cases hl : c.lru with
  | none =>
    rw [hl] at h
    have := lru.store_peek_Add_unbounded (lru.New c.cacheBytes) k key v h hne
    simpa [lru.Cache.peek, lru.New] using this
  | some l =>
    rw [hl] at h
    exact lru.store_peek_Add_unbounded l k key v h hne

/-! ## Lemmas on the read path of a group -/

theorem Group.Get_hit (g : Group) (key : GoString) (v : ByteView) (hkey : key ≠ [])
    (h : g.mainCache.peek key = some v) :
    g.Get key = (Outcome.ret (v, none),
      { g.record (Event.cacheGet key) with mainCache := (g.mainCache.get key).2 }) := by
  have h1 := cache.get_hit g.mainCache key v h
  unfold Group.Get
  rw [if_neg hkey]
  cases hg : g.mainCache.get key with
  | mk r c =>
    rw [hg] at h1
    simp only at h1
    subst h1
    rfl

theorem Group.Get_miss (g : Group) (key : GoString) (hkey : key ≠ [])
    (h : g.mainCache.peek key = none) :
    g.Get key = (g.record (Event.cacheGet key)).load key := by
  unfold Group.Get
  rw [if_neg hkey, cache.get_miss g.mainCache key h]
  rfl

theorem Group.load_standalone (g : Group) (key : GoString) (h : g.peers = none) :
    g.load key = (Outcome.ret
      (match g.getter key with
        | (_, some err) => (({ b := [] } : ByteView), some err)
        | (bytes, none) => ({ b := bytes }, none)),
      match g.getter key with
        | (_, some _) => g.record (Event.getterGet key)
        | (bytes, none) =>
          (g.record (Event.getterGet key)).populateCache key { b := bytes }) := by
  unfold Group.load singleflight.Do Group.loadFn Group.getLocally cloneBytes
  rw [h]
  rcases hg : g.getter key with ⟨bytes, _ | err⟩ <;> rfl

theorem Group.load_local (g : Group) (key : GoString) (picker : PeerPicker) (p : Option PeerGetter)
    (h : g.peers = some picker) (hp : picker.PickPeer key = (p, false)) :
    g.load key = (Outcome.ret
      (match g.getter key with
        | (_, some err) => (({ b := [] } : ByteView), some err)
        | (bytes, none) => ({ b := bytes }, none)),
      match g.getter key with
        | (_, some _) => (g.record (Event.pickPeer key)).record (Event.getterGet key)
        | (bytes, none) =>
          ((g.record (Event.pickPeer key)).record (Event.getterGet key)).populateCache key
            { b := bytes }) := by
  unfold Group.load singleflight.Do Group.loadFn Group.getLocally cloneBytes
  rw [h]
  simp only [hp]
  have hgetter : (g.record (Event.pickPeer key)).getter = g.getter := rfl
  rw [hgetter]
  rcases hg : g.getter key with ⟨bytes, _ | err⟩ <;> rfl

theorem Group.Get_empty_key (g : Group) :
    g.Get [] = (Outcome.ret ({ b := [] }, some (lit "key is required")), g) := by
  simp [Group.Get]

/-- A miss that is served locally and whose getter fails: the result and the state
afterwards. -/
theorem Group.Get_local_error (g : Group) (key : GoString) (bytes : List Byte) (e : GoError)
    (hkey : key ≠ []) (hmiss : g.mainCache.peek key = none)
    (hlocal : g.peers = none ∨
      ∃ picker p, g.peers = some picker ∧ picker.PickPeer key = (p, false))
    (hload : g.getter key = (bytes, some e)) :
    (g.Get key).1 = Outcome.ret ({ b := [] }, some e)
    ∧ (g.Get key).2.mainCache = g.mainCache
    ∧ (g.Get key).2.peers = g.peers
    ∧ (g.Get key).2.getter = g.getter
    ∧ (g.Get key).2.loaderCount key = g.loaderCount key + 1 := by
  rw [Group.Get_miss g key hkey hmiss]
  have hgetter : (g.record (Event.cacheGet key)).getter = g.getter := rfl
  rcases hlocal with h | ⟨picker, p, h, hp⟩
  · rw [Group.load_standalone (g.record (Event.cacheGet key)) key h, hgetter, hload]
    refine ⟨rfl, rfl, rfl, rfl, ?_⟩
    simp [Group.record, Group.loaderCount, List.count_append, List.count_cons]
  · rw [Group.load_local (g.record (Event.cacheGet key)) key picker p h hp, hgetter, hload]
    refine ⟨rfl, rfl, rfl, rfl, ?_⟩
    simp [Group.record, Group.loaderCount, List.count_append, List.count_cons]

/-- One Get on a standalone group: it stays standalone with the same getter, and a
value then found in the cache under a key was there before or has just been
loaded by the getter for that key. -/
theorem Group.Get_standalone (g : Group) (k key : GoString) (h : g.peers = none) :
    (g.Get k).2.peers = none ∧ (g.Get k).2.getter = g.getter
    ∧ ∀ x, (g.Get k).2.mainCache.peek key = some x →
        g.mainCache.peek key = some x ∨ (key = k ∧ g.getter k = (x.b, none)) := by
  by_cases hk : k = []
  · subst hk
    rw [Group.Get_empty_key]
    exact ⟨h, rfl, fun x hx => Or.inl hx⟩
  · cases hc : g.mainCache.peek k with
    | some v =>
      rw [Group.Get_hit g k v hk hc]
      refine ⟨h, rfl, fun x hx => Or.inl ?_⟩
      simpa [cache.peek_get] using hx
    | none =>
      rw [Group.Get_miss g k hk hc, Group.load_standalone (g.record (Event.cacheGet k)) k h]
      have hgetter : (g.record (Event.cacheGet k)).getter = g.getter := rfl
      rw [hgetter]
      rcases hg : g.getter k with ⟨bytes, _ | err⟩
      · refine ⟨h, rfl, fun x hx => ?_⟩
        rcases cache.peek_add g.mainCache k key { b := bytes } x hx with ⟨h1, h2⟩ | ⟨_, h2⟩
        · right
          subst h2
          exact ⟨h1, rfl⟩
        · exact Or.inl h2
      · exact ⟨h, rfl, fun x hx => Or.inl hx⟩

/-- Any number of Gets on a standalone group whose cache holds, under a key, at
most the value its getter yields for it: the same is true afterwards. -/
theorem Group.Gets_standalone (g : Group) (ks : List GoString) (key : GoString) (v : List Byte)
    (h : g.peers = none) (hload : g.getter key = (v, none))
    (hinv : ∀ x, g.mainCache.peek key = some x → x = { b := v }) :
    (g.Gets ks).peers = none ∧ (g.Gets ks).getter = g.getter
    ∧ ∀ x, (g.Gets ks).mainCache.peek key = some x → x = { b := v } := by
  induction ks generalizing g with
  | nil => exact ⟨h, rfl, hinv⟩
  | cons k ks ih =>
    obtain ⟨h1, h2, h3⟩ := Group.Get_standalone g k key h
    have := ih (g.Get k).2 h1 (by rw [h2]; exact hload) (fun x hx => by
      rcases h3 x hx with h4 | ⟨h4, h5⟩
      · exact hinv x h4
      · subst h4
        rw [hload] at h5
        cases x
        simp at h5
        simp [h5])
    rw [h2] at this
    exact this

/-- Repeated hits: while the entry is in the cache, Gets of its key leave it there
and do not invoke the getter. -/
theorem Group.Gets_replicate_hit (g : Group) (key : GoString) (n : Nat) (hkey : key ≠ [])
    (hc : g.mainCache.peek key ≠ none) :
    (g.Gets (List.replicate n key)).loaderCount key = g.loaderCount key
    ∧ (g.Gets (List.replicate n key)).mainCache.peek key = g.mainCache.peek key := by
  induction n generalizing g with
  | zero => exact ⟨rfl, rfl⟩
  | succ n ih =>
    obtain ⟨v, hv⟩ := Option.ne_none_iff_exists'.mp hc
    have hget := Group.Get_hit g key v hkey hv
    have hp : (g.Get key).2.mainCache.peek key = g.mainCache.peek key := by
      rw [hget]
      exact cache.peek_get g.mainCache key key
    have hl : (g.Get key).2.loaderCount key = g.loaderCount key := by
      rw [hget]
      simp [Group.record, Group.loaderCount, List.count_append, List.count_cons]
    have := ih (g.Get key).2 (by rw [hp]; exact hc)
    rw [hp, hl] at this
    exact this

/-- A first Get of a key on a standalone group whose getter yields v: the result
and the whole state afterwards. -/
theorem Group.Get_standalone_load (g : Group) (key : GoString) (v : List Byte)
    (hpeers : g.peers = none) (hkey : key ≠ []) (hload : g.getter key = (v, none))
    (hmiss : g.mainCache.peek key = none) :
    g.Get key = (Outcome.ret ({ b := v }, none),
      ((g.record (Event.cacheGet key)).record (Event.getterGet key)).populateCache key
        { b := v }) := by
  rw [Group.Get_miss g key hkey hmiss,
    Group.load_standalone (g.record (Event.cacheGet key)) key hpeers]
  have hgetter : (g.record (Event.cacheGet key)).getter = g.getter := rfl
  rw [hgetter, hload]

/-- While the entry of a key is in the cache of a standalone group, a Get of any
key does not invoke the getter for that key. -/
theorem Group.Get_loaderCount_of_cached (g : Group) (k key : GoString) (h : g.peers = none)
    (hc : g.mainCache.peek key ≠ none) :
    (g.Get k).2.loaderCount key = g.loaderCount key := by
  by_cases hk : k = []
  · subst hk
    rw [Group.Get_empty_key]
  · cases hck : g.mainCache.peek k with
    | some x =>
      rw [Group.Get_hit g k x hk hck]
      simp [Group.record, Group.loaderCount, List.count_append, List.count_cons]
    | none =>
      have hne : ¬ (k = key) := fun hkk => hc (by rw [← hkk]; exact hck)
      rw [Group.Get_miss g k hk hck, Group.load_standalone (g.record (Event.cacheGet k)) k h]
      have hgetter : (g.record (Event.cacheGet k)).getter = g.getter := rfl
      rw [hgetter]
      rcases hg : g.getter k with ⟨bytes, _ | err⟩ <;>
        simp [Group.record, Group.populateCache, Group.loaderCount, List.count_append,
          List.count_cons, hne]

/-- On a standalone group whose cache has no bound, a Get of any key leaves an entry
that is in the cache where it is, and the cache without a bound. -/
theorem Group.Get_unbounded_keeps (g : Group) (k key : GoString) (x : ByteView)
    (h : g.peers = none) (hcap : g.mainCache.capacity ≤ 0)
    (hc : g.mainCache.peek key = some x) :
    (g.Get k).2.mainCache.peek key = some x ∧ (g.Get k).2.mainCache.capacity ≤ 0 := by
  by_cases hk : k = []
  · subst hk
    rw [Group.Get_empty_key]
    exact ⟨hc, hcap⟩
  · cases hck : g.mainCache.peek k with
    | some y =>
      rw [Group.Get_hit g k y hk hck]
      refine ⟨?_, ?_⟩
      · simpa [cache.peek_get] using hc
      · simpa [cache.capacity_get] using hcap
    | none =>
      have hne : key ≠ k := fun hkk => by
        rw [hkk, hck] at hc
        cases hc
      rw [Group.Get_miss g k hk hck, Group.load_standalone (g.record (Event.cacheGet k)) k h]
      have hgetter : (g.record (Event.cacheGet k)).getter = g.getter := rfl
      rw [hgetter]
      rcases hg : g.getter k with ⟨bytes, _ | err⟩
      · refine ⟨?_, ?_⟩
        · show (g.mainCache.add k { b := bytes }).peek key = some x
          rw [cache.peek_add_unbounded g.mainCache k key _ hcap hne]
          exact hc
        · show (g.mainCache.add k { b := bytes }).capacity ≤ 0
          rw [cache.capacity_add]
          exact hcap
      · exact ⟨hc, hcap⟩

/-- A run of Gets on a standalone group during which the entry of a key is never
missing from the cache does not invoke the getter for that key. -/
theorem Group.Gets_loaderCount_of_cached (g : Group) (ks : List GoString) (key : GoString)
    (h : g.peers = none)
    (hc : ∀ n, n ≤ ks.length → (g.Gets (ks.take n)).mainCache.peek key ≠ none) :
    (g.Gets ks).loaderCount key = g.loaderCount key := by
  induction ks generalizing g with
  | nil => rfl
  | cons k ks ih =>
    have h0 : g.mainCache.peek key ≠ none := hc 0 (Nat.zero_le _)
    have hst := (Group.Get_standalone g k key h).1
    have hstep := Group.Get_loaderCount_of_cached g k key h h0
    have := ih (g.Get k).2 hst (fun n hn => by
      have := hc (n + 1) (by simp; omega)
      simpa [Group.Gets] using this)
    simp only [Group.Gets]
    rw [this, hstep]

/-- On a standalone group whose cache has no bound, no run of Gets removes an entry
or invokes the getter for its key. -/
theorem Group.Gets_unbounded_keeps (g : Group) (ks : List GoString) (key : GoString)
    (x : ByteView) (h : g.peers = none) (hcap : g.mainCache.capacity ≤ 0)
    (hc : g.mainCache.peek key = some x) :
    (g.Gets ks).mainCache.peek key = some x
    ∧ (g.Gets ks).loaderCount key = g.loaderCount key := by
  induction ks generalizing g with
  | nil => exact ⟨hc, rfl⟩
  | cons k ks ih =>
    have hst := (Group.Get_standalone g k key h).1
    obtain ⟨h1, h2⟩ := Group.Get_unbounded_keeps g k key x h hcap hc
    have hstep := Group.Get_loaderCount_of_cached g k key h (by rw [hc]; simp)
    obtain ⟨i1, i2⟩ := ih (g.Get k).2 hst h2 h1
    simp only [Group.Gets]
    exact ⟨i1, by rw [i2, hstep]⟩

/-! ## The claims on the read path of a group -/

/-- C6: for every group in every state, Get with the empty key fails with the error
"key is required" and leaves the whole state of the group as it was, the record
of calls included: the local cache is not looked at, the peer picker is not
consulted, and the getter is not invoked. -/
theorem C6_get_empty_key_rejected (g : Group) :
    g.Get [] = (Outcome.ret ({ b := [] }, some (lit "key is required")), g) := by
  simp [Group.Get]

/-- C2: on a group with a peer picker, for a non-empty key that is not in the
local cache, if PickPeer(key) returns (peer, true) and the peer answers the request
with a response and no error, then Get returns the value of the response with a nil
error; the calls made are the cache lookup, PickPeer(key) and one peer request
carrying the name of the group and the key, so the getter is not invoked; and the
local cache is left as it was. -/
theorem C2_get_from_peer_not_cached (g : Group) (picker : PeerPicker) (peer : PeerGetter)
    (key : GoString) (res : Response)
    (hkey : key ≠ []) (hmiss : g.mainCache.peek key = none)
    (hpeers : g.peers = some picker) (hpick : picker.PickPeer key = (some peer, true))
    (hget : peer.Get { Group := g.name, Key := key } { Value := [] } = (res, none)) :
    (g.Get key).1 = Outcome.ret ({ b := res.Value }, none)
    ∧ (g.Get key).2.calls
        = g.calls ++ [Event.cacheGet key, Event.pickPeer key,
            Event.peerGet { Group := g.name, Key := key }]
    ∧ (g.Get key).2.loaderCount key = g.loaderCount key
    ∧ (g.Get key).2.mainCache = g.mainCache := by
  rw [Group.Get_miss g key hkey hmiss]
  have hname : ((g.record (Event.cacheGet key)).record (Event.pickPeer key)).name = g.name := rfl
  have h1 : (g.record (Event.cacheGet key)).load key
      = (Outcome.ret ({ b := res.Value }, none),
          ((g.record (Event.cacheGet key)).record (Event.pickPeer key)).record
            (Event.peerGet { Group := g.name, Key := key })) := by
    unfold Group.load singleflight.Do Group.loadFn Group.getFromPeer
    have hp : (g.record (Event.cacheGet key)).peers = some picker := hpeers
    rw [hp]
    simp only [hpick, hname, hget]
  rw [h1]
  refine ⟨rfl, ?_, ?_, rfl⟩
  · simp [Group.record]
  · simp [Group.record, Group.loaderCount, List.count_append, List.count_cons]

/-- The scenario S6 of C2: the key "x" is owned by a peer that answers "42"; Get returns
"42" after one peer request, and the cache stays empty. -/
theorem C2_get_from_peer_not_cached_witness :
    (scoresWithPeer42.Get (lit "x")).1 = Outcome.ret ({ b := lit "42" }, none)
    ∧ (scoresWithPeer42.Get (lit "x")).2.calls
        = [Event.cacheGet (lit "x"), Event.pickPeer (lit "x"),
            Event.peerGet { Group := lit "scores", Key := lit "x" }]
    ∧ (scoresWithPeer42.Get (lit "x")).2.mainCache = { lru := none, cacheBytes := 2048 } := by
  have h := C2_get_from_peer_not_cached scoresWithPeer42
    { PickPeer := fun _ => (some peer42, true) } peer42 (lit "x") { Value := lit "42" }
    (by decide) rfl rfl rfl rfl
  exact ⟨h.1, h.2.1, h.2.2.2⟩

/-- C3: for a non-empty key that is not cached and is served locally (no picker
registered, or PickPeer(key) answers false), if the getter fails with error e then
Get returns e, the local cache is left as it was (so nothing is stored under the
key), the getter has been invoked once, and a second Get of the key invokes the
getter once more and fails with e again. -/
theorem C3_loader_error_not_cached (g : Group) (key : GoString) (bytes : List Byte)
    (e : GoError) (hkey : key ≠ []) (hmiss : g.mainCache.peek key = none)
    (hlocal : g.peers = none ∨
      ∃ picker p, g.peers = some picker ∧ picker.PickPeer key = (p, false))
    (hload : g.getter key = (bytes, some e)) :
    (g.Get key).1 = Outcome.ret ({ b := [] }, some e)
    ∧ (g.Get key).2.mainCache = g.mainCache
    ∧ (g.Get key).2.mainCache.peek key = none
    ∧ (g.Get key).2.loaderCount key = g.loaderCount key + 1
    ∧ ((g.Get key).2.Get key).1 = Outcome.ret ({ b := [] }, some e)
    ∧ ((g.Get key).2.Get key).2.loaderCount key = g.loaderCount key + 2
    ∧ ((g.Get key).2.Get key).2.mainCache = g.mainCache := by
  obtain ⟨h1, h2, h3, h4, h5⟩ := Group.Get_local_error g key bytes e hkey hmiss hlocal hload
  obtain ⟨k1, k2, _, _, k5⟩ := Group.Get_local_error (g.Get key).2 key bytes e hkey
    (by rw [h2]; exact hmiss) (by rw [h3]; exact hlocal) (by rw [h4]; exact hload)
  refine ⟨h1, h2, by rw [h2]; exact hmiss, h5, k1, ?_, by rw [k2, h2]⟩
  rw [k5, h5]

/-- The scenario S2 of C3: the getter fails for "Ghost", on a standalone group and on
a group whose picker keeps every key on this node. -/
theorem C3_loader_error_not_cached_witness :
    (scoresGroup.Get (lit "Ghost")).1
      = Outcome.ret ({ b := [] }, some (lit "Ghost not exist"))
    ∧ (scoresGroup.Get (lit "Ghost")).2.mainCache = scoresGroup.mainCache
    ∧ ((scoresGroup.Get (lit "Ghost")).2.Get (lit "Ghost")).2.loaderCount (lit "Ghost") = 2
    ∧ (scoresSelfOwned.Get (lit "Ghost")).1
      = Outcome.ret ({ b := [] }, some (lit "Ghost not exist")) := by
  have h := C3_loader_error_not_cached scoresGroup (lit "Ghost") [] (lit "Ghost not exist")
    (by decide) rfl (Or.inl rfl) (by decide)
  have h2 := C3_loader_error_not_cached scoresSelfOwned (lit "Ghost") []
    (lit "Ghost not exist") (by decide) rfl
    (Or.inr ⟨{ PickPeer := fun _ => (none, false) }, none, rfl, rfl⟩) (by decide)
  exact ⟨h.1, h.2.1, h.2.2.2.2.2.1, h2.1⟩

/-- C4: on a group with a peer picker, for a non-empty key that is not cached, if
PickPeer(key) returns (peer, true) and the peer request fails (with any error),
then Get falls back to the getter and returns what the local path returns: when the
getter yields bytes v, the result is a view of v with a nil error (the peer error
is not reported), and the cache afterwards is the cache before with (key, v)
added; when the getter fails with e, the result is the error e and the cache is
as before. In both cases the getter is invoked once, after the one peer request. -/
theorem C4_peer_failure_falls_back (g : Group) (picker : PeerPicker) (peer : PeerGetter)
    (key : GoString) (res : Response) (perr : GoError)
    (hkey : key ≠ []) (hmiss : g.mainCache.peek key = none)
    (hpeers : g.peers = some picker) (hpick : picker.PickPeer key = (some peer, true))
    (hfail : peer.Get { Group := g.name, Key := key } { Value := [] } = (res, some perr)) :
    (∀ v, g.getter key = (v, none) →
        (g.Get key).1 = Outcome.ret ({ b := v }, none)
        ∧ (g.Get key).2.mainCache = g.mainCache.add key { b := v }
        ∧ (g.Get key).2.calls
            = g.calls ++ [Event.cacheGet key, Event.pickPeer key,
                Event.peerGet { Group := g.name, Key := key }, Event.getterGet key,
                Event.cacheAdd key { b := v }])
    ∧ (∀ bytes e, g.getter key = (bytes, some e) →
        (g.Get key).1 = Outcome.ret ({ b := [] }, some e)
        ∧ (g.Get key).2.mainCache = g.mainCache
        ∧ (g.Get key).2.calls
            = g.calls ++ [Event.cacheGet key, Event.pickPeer key,
                Event.peerGet { Group := g.name, Key := key }, Event.getterGet key]) := by
  rw [Group.Get_miss g key hkey hmiss]
  have hname : ((g.record (Event.cacheGet key)).record (Event.pickPeer key)).name = g.name := rfl
  have hp : (g.record (Event.cacheGet key)).peers = some picker := hpeers
  have hgetter : ∀ e1 e2 e3, (((g.record e1).record e2).record e3).getter = g.getter :=
    fun _ _ _ => rfl
  constructor
  · intro v hv
    have h1 : (g.record (Event.cacheGet key)).load key
        = (Outcome.ret ({ b := v }, none),
            ((((g.record (Event.cacheGet key)).record (Event.pickPeer key)).record
              (Event.peerGet { Group := g.name, Key := key })).record
                (Event.getterGet key)).populateCache key { b := v }) := by
      unfold Group.load singleflight.Do Group.loadFn Group.getFromPeer Group.getLocally
        cloneBytes
      rw [hp]
      simp only [hpick, hname, hfail, hgetter, hv]
    rw [h1]
    refine ⟨rfl, rfl, ?_⟩
    simp [Group.record, Group.populateCache]
  · intro bytes e he
    have h1 : (g.record (Event.cacheGet key)).load key
        = (Outcome.ret ({ b := [] }, some e),
            (((g.record (Event.cacheGet key)).record (Event.pickPeer key)).record
              (Event.peerGet { Group := g.name, Key := key })).record
                (Event.getterGet key)) := by
      unfold Group.load singleflight.Do Group.loadFn Group.getFromPeer Group.getLocally
      rw [hp]
      simp only [hpick, hname, hfail, hgetter, he]
    rw [h1]
    refine ⟨rfl, rfl, ?_⟩
    simp [Group.record]

/-- An instance of C4: the owning peer cannot be reached; "Tom" is then loaded and
cached locally, and for "Ghost" the error of the getter is returned. -/
theorem C4_peer_failure_falls_back_witness :
    ((scoresWithPeerDown.Get (lit "Tom")).1 = Outcome.ret ({ b := lit "630" }, none)
      ∧ (scoresWithPeerDown.Get (lit "Tom")).2.mainCache.peek (lit "Tom")
          = some { b := lit "630" })
    ∧ (scoresWithPeerDown.Get (lit "Ghost")).1
        = Outcome.ret ({ b := [] }, some (lit "Ghost not exist")) := by
  have h := C4_peer_failure_falls_back scoresWithPeerDown
    { PickPeer := fun _ => (some peerDown, true) } peerDown (lit "Tom") { Value := [] }
    (lit "server returned: 404 Not Found") (by decide) rfl rfl rfl rfl
  have h2 := C4_peer_failure_falls_back scoresWithPeerDown
    { PickPeer := fun _ => (some peerDown, true) } peerDown (lit "Ghost") { Value := [] }
    (lit "server returned: 404 Not Found") (by decide) rfl rfl rfl rfl
  refine ⟨⟨(h.1 (lit "630") (by decide)).1, ?_⟩, (h2.2 [] (lit "Ghost not exist") (by decide)).1⟩
  rw [(h.1 (lit "630") (by decide)).2.1]
  decide

/-- C1: on a standalone group (no picker registered), for a non-empty key that is
not yet cached and for which the getter yields bytes v. The first Get returns a view
of v with a nil error and invokes the getter once (the calls are the cache lookup,
the getter and the cache insertion), and the cache afterwards is the cache before
with (key, v) added. If the entry fits (the capacity is not positive, or
len(key) + len(v) is within it), the entry is then in the cache, and every one of
any number of repeated Gets of the key returns a view of v with a nil error from
the cache, making no call but the cache lookup, so that the getter has been invoked
for the key once in all. If the cache has no bound, the same holds after any
further Gets of any keys. In general: after any further Gets of any keys, if the
entry is still in the cache, Get of the key returns a view of v from the cache
without invoking the getter; and over any run of Gets during which the entry is
never missing from the cache, the getter is invoked for the key once in all. -/
theorem C1_standalone_get_loads_once (g : Group) (key : GoString) (v : List Byte)
    (hpeers : g.peers = none) (hkey : key ≠ []) (hload : g.getter key = (v, none))
    (hmiss : g.mainCache.peek key = none) :
    (g.Get key).1 = Outcome.ret ({ b := v }, none)
    ∧ (g.Get key).2.calls
        = g.calls ++ [Event.cacheGet key, Event.getterGet key, Event.cacheAdd key { b := v }]
    ∧ (g.Get key).2.loaderCount key = g.loaderCount key + 1
    ∧ (g.Get key).2.mainCache = g.mainCache.add key { b := v }
    ∧ (g.mainCache.capacity ≤ 0
          ∨ (key.length : Int) + (v.length : Int) ≤ g.mainCache.capacity →
        (g.Get key).2.mainCache.peek key = some { b := v }
        ∧ ∀ n : Nat,
            ((g.Get key).2.Gets (List.replicate n key)).loaderCount key = g.loaderCount key + 1
            ∧ (((g.Get key).2.Gets (List.replicate n key)).Get key).1
                = Outcome.ret ({ b := v }, none)
            ∧ (((g.Get key).2.Gets (List.replicate n key)).Get key).2.calls
                = ((g.Get key).2.Gets (List.replicate n key)).calls ++ [Event.cacheGet key])
    ∧ (g.mainCache.capacity ≤ 0 →
        ∀ ks : List GoString,
          ((g.Get key).2.Gets ks).mainCache.peek key = some { b := v }
          ∧ ((g.Get key).2.Gets ks).loaderCount key = g.loaderCount key + 1
          ∧ (((g.Get key).2.Gets ks).Get key).1 = Outcome.ret ({ b := v }, none)
          ∧ (((g.Get key).2.Gets ks).Get key).2.calls
              = ((g.Get key).2.Gets ks).calls ++ [Event.cacheGet key])
    ∧ (∀ ks : List GoString,
        (∀ n, n ≤ ks.length → ((g.Get key).2.Gets (ks.take n)).mainCache.peek key ≠ none) →
          ((g.Get key).2.Gets ks).loaderCount key = g.loaderCount key + 1)
    ∧ (∀ ks : List GoString, ((g.Get key).2.Gets ks).mainCache.peek key ≠ none →
        (((g.Get key).2.Gets ks).Get key).1 = Outcome.ret ({ b := v }, none)
        ∧ (((g.Get key).2.Gets ks).Get key).2.calls
            = ((g.Get key).2.Gets ks).calls ++ [Event.cacheGet key])
    ∧ ((g.Get key).2.mainCache.peek key ≠ none →
        ∀ n : Nat, ((g.Get key).2.Gets (List.replicate n key)).loaderCount key
          = g.loaderCount key + 1) := by
  have hget := Group.Get_standalone_load g key v hpeers hkey hload hmiss
  have hcount : (g.Get key).2.loaderCount key = g.loaderCount key + 1 := by
    rw [hget]
    simp [Group.record, Group.populateCache, Group.loaderCount, List.count_append,
      List.count_cons]
  have hcache : (g.Get key).2.mainCache = g.mainCache.add key { b := v } := by
    rw [hget]
    rfl
  have hst := Group.Get_standalone g key key hpeers
  have hfit : g.mainCache.capacity ≤ 0
        ∨ (key.length : Int) + (v.length : Int) ≤ g.mainCache.capacity →
      (g.Get key).2.mainCache.peek key = some { b := v } := by
    intro h
    rw [hcache]
    exact cache.peek_add_self g.mainCache key { b := v } h
  have hhit : ∀ g2 : Group, g2.mainCache.peek key = some { b := v } →
      (g2.Get key).1 = Outcome.ret ({ b := v }, none)
      ∧ (g2.Get key).2.calls = g2.calls ++ [Event.cacheGet key] := by
    intro g2 h2
    rw [Group.Get_hit g2 key _ hkey h2]
    exact ⟨rfl, rfl⟩
  have hlater : ∀ ks : List GoString, ((g.Get key).2.Gets ks).mainCache.peek key ≠ none →
      ((g.Get key).2.Gets ks).mainCache.peek key = some { b := v } := by
    intro ks hks
    have hinv := Group.Gets_standalone (g.Get key).2 ks key v hst.1
      (by rw [hst.2.1]; exact hload) (fun x hx => by
        rcases hst.2.2 x hx with h4 | ⟨_, h5⟩
        · rw [hmiss] at h4
          cases h4
        · rw [hload] at h5
          cases x
          simp at h5
          simp [h5])
    obtain ⟨x, hx⟩ := Option.ne_none_iff_exists'.mp hks
    rw [hx, hinv.2.2 x hx]
  refine ⟨by rw [hget], ?_, hcount, hcache, ?_, ?_, ?_, ?_, ?_⟩
  · rw [hget]
    simp [Group.record, Group.populateCache]
  · intro h
    have hp := hfit h
    refine ⟨hp, fun n => ?_⟩
    have hrep := Group.Gets_replicate_hit (g.Get key).2 key n hkey (by rw [hp]; simp)
    refine ⟨by rw [hrep.1, hcount], ?_⟩
    exact hhit _ (by rw [hrep.2, hp])
  · intro hcap ks
    have hp := hfit (Or.inl hcap)
    have hcap1 : (g.Get key).2.mainCache.capacity ≤ 0 := by
      rw [hcache, cache.capacity_add]
      exact hcap
    obtain ⟨k1, k2⟩ := Group.Gets_unbounded_keeps (g.Get key).2 ks key { b := v } hst.1 hcap1 hp
    exact ⟨k1, by rw [k2, hcount], hhit _ k1⟩
  · intro ks hks
    rw [Group.Gets_loaderCount_of_cached (g.Get key).2 ks key hst.1 hks, hcount]
  · intro ks hks
    exact hhit _ (hlater ks hks)
  · intro hc n
    rw [(Group.Gets_replicate_hit (g.Get key).2 key n hkey hc).1, hcount]

/-- The scenario S1 of C1, with the capacity 2048 of test/main.go: Get("Tom") yields
"630" with one getter invocation and leaves the entry in the cache; Get("Tom")
again yields "630", and after three Gets in all the count is still one. -/
theorem C1_standalone_get_loads_once_witness :
    (scoresGroup.Get (lit "Tom")).1 = Outcome.ret ({ b := lit "630" }, none)
    ∧ (scoresGroup.Get (lit "Tom")).2.loaderCount (lit "Tom") = 1
    ∧ (scoresGroup.Get (lit "Tom")).2.mainCache.peek (lit "Tom") = some { b := lit "630" }
    ∧ ((scoresGroup.Get (lit "Tom")).2.Get (lit "Tom")).1
        = Outcome.ret ({ b := lit "630" }, none)
    ∧ ((scoresGroup.Get (lit "Tom")).2.Gets [lit "Tom", lit "Tom"]).loaderCount (lit "Tom")
        = 1 := by
  have h := C1_standalone_get_loads_once scoresGroup (lit "Tom") (lit "630") rfl (by decide)
    (by decide) rfl
  have hfit := h.2.2.2.2.1 (Or.inr (by decide))
  exact ⟨h.1, h.2.2.1, hfit.1, (hfit.2 0).2.1, (hfit.2 2).1⟩

/-! ## The claims on the HTTP server side -/

theorem strings.Index_slash_none (s : GoString) (h : (47 : Byte) ∉ s) :
    strings.Index s (lit "/") = none := by
  induction s with
  | nil =>
    unfold strings.Index
    decide
  | cons c rest ih =>
    have hc : ¬ ((47 : Byte) = c) := fun hc => h (by simp [hc])
    have hrest : (47 : Byte) ∉ rest := fun hr => h (by simp [hr])
    unfold strings.Index
    have hp : (lit "/").isPrefixOf (c :: rest) = false := by
      have : lit "/" = [(47 : Byte)] := by decide
      rw [this]
      simp [List.isPrefixOf, hc]
    rw [hp]
    simp [ih hrest]

theorem strings.SplitN_no_slash (s : GoString) (h : (47 : Byte) ∉ s) :
    strings.SplitN s (lit "/") 2 = [s] := by
  unfold strings.SplitN
  rw [strings.Index_slash_none s h]

/-- C9: for every request whose path starts with basePath and whose remaining
suffix contains no '/', ServeHTTP answers 400 ("bad request") and leaves the
registry of groups, and so the state of every group, as it was: no group is looked
up and Get is not called. -/
theorem C9_malformed_suffix_bad_request (p : HTTPPool) (groups : Registry) (r : HTTPRequest)
    (hpre : strings.HasPrefix r.Path p.basePath = true)
    (hno : (47 : Byte) ∉ r.Path.drop p.basePath.length) :
    p.ServeHTTP groups r = (Outcome.ret (http.Error (lit "bad request") 400), groups) := by
  unfold HTTPPool.ServeHTTP HTTPPool.pathParts
  rw [hpre, strings.SplitN_no_slash _ hno]
  rfl

/-- An instance of C9: the path "/_mycache/scores" has no key part and is answered
with 400. -/
theorem C9_malformed_suffix_bad_request_witness :
    pool8001.ServeHTTP scoresRegistry { Method := lit "GET", Path := lit "/_mycache/scores" }
      = (Outcome.ret { status := 400, contentType := lit "text/plain; charset=utf-8",
                       body := lit "bad request" ++ [10] }, scoresRegistry) :=
  C9_malformed_suffix_bad_request pool8001 scoresRegistry
    { Method := lit "GET", Path := lit "/_mycache/scores" } (by decide) (by decide)

/-- C5: the request for the key "Ghost" of the registered group "scores", whose
getter fails for that key: Get returns the error "Ghost not exist", and ServeHTTP
answers with status 200 and an empty body, not with status 500 and the message. -/
theorem C5_get_error_answered_with_200 :
    (scoresGroup.Get (lit "Ghost")).1
      = Outcome.ret ({ b := [] }, some (lit "Ghost not exist"))
    ∧ (pool8001.ServeHTTP scoresRegistry
        { Method := lit "GET", Path := lit "/_mycache/scores/Ghost" }).1
      = Outcome.ret { status := 200, contentType := lit "application/octet-stream",
                      body := [] } := by
  constructor <;> decide

/-! ## The claim on the URL of a peer request -/

theorem url.hex_digit : ∀ n, n < 16 →
    url.ishex (url.upperhex n) = true ∧ url.unhex (url.upperhex n) = n := by
  decide

theorem url.unreserved_ne_percent (c : Byte) (h : url.unreserved c = true) : c.val ≠ 37 := by
  intro h37
  have : c = 37 := Fin.ext h37
  subst this
  revert h
  decide

theorem url.unescapePath_cons_of_ne (c : Byte) (rest : GoString) (h : c.val ≠ 37) :
    url.unescapePath (c :: rest) = (url.unescapePath rest).map (fun t => c :: t) := by
  conv_lhs => unfold url.unescapePath
  rw [if_neg h]

theorem url.unescapePath_escaped (c : Byte) (rest : GoString) :
    url.unescapePath ((37 : Byte) :: url.upperhex (c.val / 16) :: url.upperhex (c.val % 16) :: rest)
      = (url.unescapePath rest).map (fun t => c :: t) := by
  have h1 := url.hex_digit (c.val / 16) (by omega)
  have h2 := url.hex_digit (c.val % 16) (by omega)
  conv_lhs => unfold url.unescapePath
  have h37 : ((37 : Byte)).val = 37 := rfl
  have hc : (Fin.ofNat (c.val / 16 * 16 + c.val % 16) : Byte) = c := by
    apply Fin.ext
    simp [Fin.ofNat]
    omega
  rw [if_pos h37]
  simp only [h1.1, h2.1, h1.2, h2.2, hc, Bool.and_self, if_true]

theorem url.unescapePath_QueryEscape (s t : GoString) :
    url.unescapePath (url.QueryEscape s ++ t)
      = (url.unescapePath t).map (fun r => url.spacesToPlus s ++ r) := by
  induction s with
  | nil =>
    simp [url.QueryEscape, url.spacesToPlus]
  | cons c rest ih =>
    unfold url.QueryEscape url.spacesToPlus
    by_cases h32 : c.val = 32
    · have h43 : ((43 : Byte)).val ≠ 37 := by decide
      simp only [h32, if_true, List.cons_append]
      rw [url.unescapePath_cons_of_ne _ _ h43, ih]
      simp [Option.map_map, Function.comp_def]
    · by_cases hu : url.unreserved c = true
      · simp only [h32, hu, if_true, if_false, List.cons_append]
        rw [url.unescapePath_cons_of_ne _ _ (url.unreserved_ne_percent c hu), ih]
        simp [Option.map_map, Function.comp_def]
      · simp only [h32, hu, if_false, List.cons_append, Bool.false_eq_true]
        rw [url.unescapePath_escaped, ih]
        simp [Option.map_map, Function.comp_def]

theorem url.spacesToPlus_of_no_space (s : GoString) (h : (32 : Byte) ∉ s) :
    url.spacesToPlus s = s := by
  induction s with
  | nil => rfl
  | cons c rest ih =>
    have hc : ¬ (c.val = 32) := fun hc => h (by
      have : c = 32 := Fin.ext hc
      simp [this])
    have hrest : (32 : Byte) ∉ rest := fun hr => h (by simp [hr])
    simp [url.spacesToPlus, hc, ih hrest]

theorem url.unescapePath_plain_append (a t : GoString) (h : (37 : Byte) ∉ a) :
    url.unescapePath (a ++ t) = (url.unescapePath t).map (fun r => a ++ r) := by
  induction a with
  | nil => simp
  | cons c rest ih =>
    have hc : c.val ≠ 37 := fun hc => h (by
      have : c = 37 := Fin.ext hc
      simp [this])
    have hrest : (37 : Byte) ∉ rest := fun hr => h (by simp [hr])
    rw [List.cons_append, url.unescapePath_cons_of_ne _ _ hc, ih hrest]
    simp [Option.map_map, Function.comp_def]

theorem strings.Index_slash_append (g k : GoString) (h : (47 : Byte) ∉ g) :
    strings.Index (g ++ lit "/" ++ k) (lit "/") = some g.length := by
  have hl : lit "/" = [(47 : Byte)] := by decide
  rw [hl]
  induction g with
  | nil =>
    unfold strings.Index
    simp [List.isPrefixOf]
  | cons c rest ih =>
    have hc : ¬ ((47 : Byte) = c) := fun hc => h (by simp [hc])
    have hrest : (47 : Byte) ∉ rest := fun hr => h (by simp [hr])
    unfold strings.Index
    have hp : List.isPrefixOf [(47 : Byte)] (c :: rest ++ [(47 : Byte)] ++ k) = false := by
      simp [List.isPrefixOf, hc]
    rw [hp]
    have ih2 := ih hrest
    simp only [List.append_assoc, List.singleton_append, List.cons_append, List.nil_append]
      at ih2 ⊢
    simp [ih2]

theorem strings.SplitN_slash_append (g k : GoString) (h : (47 : Byte) ∉ g) :
    strings.SplitN (g ++ lit "/" ++ k) (lit "/") 2 = [g, k] := by
  unfold strings.SplitN
  rw [strings.Index_slash_append g k h]
  have hl : (lit "/").length = 1 := by decide
  simp [strings.SplitN, hl, List.append_assoc, List.take_append_eq_append_take]

/-- What the server of a peer finds as the path of the request that a client built
for a group name and a key: the base path, the name and the key, with every space
of the name and of the key turned into '+'. -/
theorem serverPath_requestURL (peer g k : GoString) :
    serverPath peer
        (httpGetter.requestURL { baseURL := peer ++ defaultBasePath } { Group := g, Key := k })
      = some (defaultBasePath ++ url.spacesToPlus g ++ lit "/" ++ url.spacesToPlus k) := by
  unfold serverPath httpGetter.requestURL
  have hpre : peer.isPrefixOf
      (peer ++ defaultBasePath ++ url.QueryEscape g ++ lit "/" ++ url.QueryEscape k) = true := by
    rw [List.isPrefixOf_iff_prefix]
    simp [List.append_assoc]
  simp only [hpre, if_true]
  have hdrop : (peer ++ defaultBasePath ++ url.QueryEscape g ++ lit "/" ++ url.QueryEscape k).drop
      peer.length = defaultBasePath ++ (url.QueryEscape g ++ (lit "/" ++ (url.QueryEscape k ++ [])))
      := by
    simp [List.append_assoc]
  rw [hdrop, url.unescapePath_plain_append _ _ (by decide), url.unescapePath_QueryEscape,
    url.unescapePath_plain_append _ _ (by decide), url.unescapePath_QueryEscape]
  simp [url.unescapePath, List.append_assoc]

/-- C8 as stated fails: for the key "a b" the server recovers the key "a+b", and
for the group name "a/b" with the key "k" it recovers the group name "a" and the
key "b/k". -/
theorem C8_space_and_group_slash_not_recovered :
    serverParts pool8001 (lit "http://localhost:8002") (lit "scores") (lit "a b")
      = some [lit "scores", lit "a+b"]
    ∧ serverParts pool8001 (lit "http://localhost:8002") (lit "scores") (lit "a b")
      ≠ some [lit "scores", lit "a b"]
    ∧ serverParts pool8001 (lit "http://localhost:8002") (lit "a/b") (lit "k")
      = some [lit "a", lit "b/k"]
    ∧ serverParts pool8001 (lit "http://localhost:8002") (lit "a/b") (lit "k")
      ≠ some [lit "a/b", lit "k"] := by
  refine ⟨?_, ?_, ?_, ?_⟩ <;> decide

/-- C8, amended: for every group name g without a space and without '/', and every
key k without a space, the URL that the client of a peer builds is
baseURL + escape(g) + "/" + escape(k), the request target decodes on the server to
a path that starts with the base path, and from that path ServeHTTP cuts exactly
the group name g and the key k. -/
theorem C8_round_trip_without_space_or_group_slash (p : HTTPPool) (peer g k : GoString)
    (hbase : p.basePath = defaultBasePath)
    (hg : (32 : Byte) ∉ g) (hk : (32 : Byte) ∉ k) (hslash : (47 : Byte) ∉ g) :
    httpGetter.requestURL { baseURL := peer ++ p.basePath } { Group := g, Key := k }
      = (peer ++ p.basePath) ++ url.QueryEscape g ++ lit "/" ++ url.QueryEscape k
    ∧ ∃ path,
        serverPath peer
          (httpGetter.requestURL { baseURL := peer ++ p.basePath } { Group := g, Key := k })
          = some path
        ∧ strings.HasPrefix path p.basePath = true
        ∧ p.pathParts path = [g, k] := by
  refine ⟨rfl, p.basePath ++ g ++ lit "/" ++ k, ?_, ?_, ?_⟩
  · rw [hbase, serverPath_requestURL, url.spacesToPlus_of_no_space g hg,
      url.spacesToPlus_of_no_space k hk]
  · unfold strings.HasPrefix
    rw [List.isPrefixOf_iff_prefix]
    simp [List.append_assoc]
  · unfold HTTPPool.pathParts
    have hdrop : (p.basePath ++ g ++ lit "/" ++ k).drop p.basePath.length = g ++ lit "/" ++ k := by
      simp [List.append_assoc]
    rw [hdrop, strings.SplitN_slash_append g k hslash]

/-- An instance of the amended C8: the key "a+b/c%" of the group "scores" is
recovered exactly. -/
theorem C8_round_trip_without_space_or_group_slash_witness :
    ∃ path,
      serverPath (lit "http://localhost:8002")
        (httpGetter.requestURL { baseURL := lit "http://localhost:8002" ++ pool8001.basePath }
          { Group := lit "scores", Key := lit "a+b/c%" })
        = some path
      ∧ strings.HasPrefix path pool8001.basePath = true
      ∧ pool8001.pathParts path = [lit "scores", lit "a+b/c%"] :=
  (C8_round_trip_without_space_or_group_slash pool8001 (lit "http://localhost:8002")
    (lit "scores") (lit "a+b/c%") rfl (by decide) (by decide) (by decide)).2

/-! ## The claims on the peer pool -/

theorem GoMap.get_set {κ ν : Type} [DecidableEq κ] (m : GoMap κ ν) (k x : κ) (v : ν) :
    (GoMap.set m k v).get x = if x = k then some v else GoMap.get m x := by
  induction m with
  | nil =>
    by_cases hx : x = k
    · simp [GoMap.set, GoMap.get, hx]
    · have hx2 : ¬ (k = x) := fun h => hx h.symm
      simp [GoMap.set, GoMap.get, hx, hx2]
  | cons e rest ih =>
    unfold GoMap.set
    by_cases hek : e.1 = k
    · rw [if_pos hek]
      by_cases hx : x = k
      · simp [GoMap.get, hx]
      · have hx2 : ¬ (k = x) := fun h => hx h.symm
        have hx3 : ¬ (e.1 = x) := fun h => hx2 (hek.symm.trans h)
        simp [GoMap.get, hx, hx2, hx3, List.find?_cons]
    · rw [if_neg hek]
      by_cases hex : e.1 = x
      · have hx : ¬ (x = k) := fun h => hek (hex.trans h)
        simp [GoMap.get, hex, hx, List.find?_cons]
      · unfold GoMap.get at ih ⊢
        simp only [List.find?_cons, hex, decide_False]
        exact ih

theorem GoMap.keys_set {κ ν : Type} [DecidableEq κ] (m : GoMap κ ν) (k : κ) (v : ν) :
    (GoMap.set m k v).map Prod.fst
      = if k ∈ m.map Prod.fst then m.map Prod.fst else m.map Prod.fst ++ [k] := by
  induction m with
  | nil => simp [GoMap.set]
  | cons e rest ih =>
    unfold GoMap.set
    by_cases hek : e.1 = k
    · simp [hek]
    · have hke : ¬ (k = e.1) := fun h => hek h.symm
      rw [if_neg hek, List.map_cons, ih]
      by_cases hm : k ∈ rest.map Prod.fst
      · have hm2 : k ∈ (e :: rest).map Prod.fst := by simp at hm ⊢; exact Or.inr hm
        rw [if_pos hm, if_pos hm2]
        rfl
      · have hm2 : k ∉ (e :: rest).map Prod.fst := by
          simp at hm ⊢
          exact ⟨hke, hm⟩
        rw [if_neg hm, if_neg hm2]
        rfl

theorem GoMap.nodup_keys_set {κ ν : Type} [DecidableEq κ] (m : GoMap κ ν) (k : κ) (v : ν)
    (h : (m.map Prod.fst).Nodup) : ((GoMap.set m k v).map Prod.fst).Nodup := by
  rw [GoMap.keys_set]
  by_cases hm : k ∈ m.map Prod.fst
  · rw [if_pos hm]; exact h
  · rw [if_neg hm]
    rw [List.nodup_append]
    refine ⟨h, List.nodup_singleton k, ?_⟩
    intro a ha hb
    simp at hb
    subst hb
    exact hm ha

theorem GoMap.foldl_set_get {κ ν : Type} [DecidableEq κ] (f : κ → ν) (ps : List κ)
    (m : GoMap κ ν) (x : κ) :
    (ps.foldl (fun m1 peer => GoMap.set m1 peer (f peer)) m).get x
      = if x ∈ ps then some (f x) else GoMap.get m x := by
  induction ps generalizing m with
  | nil => simp
  | cons q rest ih =>
    rw [List.foldl_cons, ih, GoMap.get_set]
    by_cases hr : x ∈ rest
    · simp [hr]
    · by_cases hq : x = q
      · simp [hq]
      · simp [hr, hq]

theorem GoMap.foldl_set_nodup {κ ν : Type} [DecidableEq κ] (f : κ → ν) (ps : List κ)
    (m : GoMap κ ν) (h : (m.map Prod.fst).Nodup) :
    ((ps.foldl (fun m1 peer => GoMap.set m1 peer (f peer)) m).map Prod.fst).Nodup := by
  induction ps generalizing m with
  | nil => exact h
  | cons q rest ih =>
    rw [List.foldl_cons]
    exact ih _ (GoMap.nodup_keys_set m q (f q) h)

namespace consistenthash

theorem foldl_addReplica (peer : GoString) (is : List Nat) (m : Map) :
    (is.foldl (fun m1 i => m1.addReplica peer i) m).hash = m.hash
    ∧ (is.foldl (fun m1 i => m1.addReplica peer i) m).replicas = m.replicas
    ∧ (is.foldl (fun m1 i => m1.addReplica peer i) m).keys
        = m.keys ++ is.map (fun i => m.hash (strconv.Itoa i ++ peer)) := by
  induction is generalizing m with
  | nil => simp
  | cons i rest ih =>
    obtain ⟨h1, h2, h3⟩ := ih (m.addReplica peer i)
    rw [List.foldl_cons, h1, h2, h3]
    simp [Map.addReplica]

theorem addPeer_spec (m : Map) (peer : GoString) :
    (m.addPeer peer).hash = m.hash ∧ (m.addPeer peer).replicas = m.replicas
    ∧ (m.addPeer peer).keys = m.keys ++ slots m.hash m.replicas peer :=
  foldl_addReplica peer (List.range m.replicas.toNat) m

theorem foldl_addPeer (ps : List GoString) (m : Map) :
    (ps.foldl Map.addPeer m).hash = m.hash
    ∧ (ps.foldl Map.addPeer m).replicas = m.replicas
    ∧ (ps.foldl Map.addPeer m).keys = m.keys ++ ps.flatMap (slots m.hash m.replicas) := by
  induction ps generalizing m with
  | nil => simp
  | cons q rest ih =>
    obtain ⟨h1, h2, h3⟩ := ih (m.addPeer q)
    obtain ⟨k1, k2, k3⟩ := addPeer_spec m q
    rw [List.foldl_cons, h1, h2, h3, k1, k2, k3]
    simp

theorem ownedBy_addReplica (m : Map) (S : List GoString) (peer : GoString) (i : Nat)
    (hm : m.ownedBy S) (hp : peer ∈ S) : (m.addReplica peer i).ownedBy S := by
  obtain ⟨h1, h2⟩ := hm
  constructor
  · intro slot x hx
    simp only [Map.addReplica, GoMap.get_set] at hx
    by_cases hs : slot = m.hash (strconv.Itoa i ++ peer)
    · rw [if_pos hs] at hx
      cases hx
      exact hp
    · rw [if_neg hs] at hx
      exact h1 slot x hx
  · intro slot hslot
    simp only [Map.addReplica, GoMap.get_set, List.mem_append, List.mem_singleton] at hslot ⊢
    by_cases hs : slot = m.hash (strconv.Itoa i ++ peer)
    · exact ⟨peer, by rw [if_pos hs]⟩
    · rw [if_neg hs]
      rcases hslot with h | h
      · exact h2 slot h
      · exact absurd h hs

theorem ownedBy_addPeer (m : Map) (S : List GoString) (peer : GoString)
    (hm : m.ownedBy S) (hp : peer ∈ S) : (m.addPeer peer).ownedBy S := by
  unfold Map.addPeer
  generalize List.range m.replicas.toNat = is
  induction is generalizing m with
  | nil => exact hm
  | cons i rest ih =>
    rw [List.foldl_cons]
    exact ih _ (ownedBy_addReplica m S peer i hm hp)

theorem ownedBy_foldl_addPeer (ps S : List GoString) (m : Map)
    (hm : m.ownedBy S) (hp : ∀ q, q ∈ ps → q ∈ S) : (ps.foldl Map.addPeer m).ownedBy S := by
  induction ps generalizing m with
  | nil => exact hm
  | cons q rest ih =>
    rw [List.foldl_cons]
    exact ih _ (ownedBy_addPeer m S q hm (hp q (by simp))) (fun x hx => hp x (by simp [hx]))

theorem ownedBy_New_Add (crc : Hash) (replicas : Int) (fn : Option Hash) (ps : List GoString) :
    ((New crc replicas fn).Add ps).ownedBy ps := by
  have h0 : (New crc replicas fn).ownedBy ps := by
    constructor
    · intro slot x hx
      simp [New, GoMap.get] at hx
    · intro slot hslot
      simp [New] at hslot
  obtain ⟨h1, h2⟩ := ownedBy_foldl_addPeer ps ps _ h0 (fun _ h => h)
  constructor
  · exact h1
  · intro slot hslot
    apply h2
    simp only [Map.Add] at hslot
    exact (List.perm_insertionSort _ _).mem_iff.mp hslot

theorem Get_owner (m : Map) (S : List GoString) (h : m.ownedBy S) (key : GoString) :
    m.Get key = [] ∨ m.Get key ∈ S := by
  unfold Map.Get
  split
  · exact Or.inl rfl
  · split
    · rename_i slot _
      cases hg : m.hashMap.get slot with
      | none => exact Or.inl rfl
      | some x => exact Or.inr (h.1 slot x hg)
    · cases hg : m.hashMap.get (m.keys.headD 0) with
      | none => exact Or.inl rfl
      | some x => exact Or.inr (h.1 _ x hg)

theorem Get_of_no_peers (crc : Hash) (replicas : Int) (fn : Option Hash) (key : GoString) :
    ((New crc replicas fn).Add []).Get key = [] := by
  simp [Map.Get, Map.Add, New]

end consistenthash

/-- After Set, the client stored for a peer id is the one bound to the peer id
followed by the base path, and there is none for any other string. -/
theorem HTTPPool.Set_httpGetters_get (crc : consistenthash.Hash) (p : HTTPPool)
    (ps : List GoString) (x : GoString) :
    (p.Set crc ps).httpGetters.get x
      = if x ∈ ps then some { baseURL := x ++ p.basePath } else none := by
  unfold HTTPPool.Set
  simp only
  rw [GoMap.foldl_set_get (fun peer => ({ baseURL := peer ++ p.basePath } : httpGetter))]
  by_cases hx : x ∈ ps
  · simp [hx]
  · simp [hx, GoMap.get]

/-- C7: on a pool on which Set(ps) has been called, with owner the peer id that
the ring of the pool gives for the key: PickPeer(key) returns (nil, false) when the
owner is the empty string (as it is on the empty ring) or is the pool itself;
otherwise it returns (client, true), where the client is the one stored for the
owner and is bound to the base URL owner + basePath. -/
theorem C7_PickPeer_after_Set (crc : consistenthash.Hash) (p : HTTPPool) (ps : List GoString)
    (key : GoString) :
    (p.Set crc ps).peers = some ((consistenthash.New crc defaultReplicas none).Add ps)
    ∧ (((consistenthash.New crc defaultReplicas none).Add ps).Get key = []
        ∨ ((consistenthash.New crc defaultReplicas none).Add ps).Get key = p.self →
        (p.Set crc ps).PickPeer key = Outcome.ret (none, false))
    ∧ (((consistenthash.New crc defaultReplicas none).Add ps).Get key ≠ []
        ∧ ((consistenthash.New crc defaultReplicas none).Add ps).Get key ≠ p.self →
        (p.Set crc ps).PickPeer key
          = Outcome.ret
              ((p.Set crc ps).httpGetters.get
                (((consistenthash.New crc defaultReplicas none).Add ps).Get key), true)
        ∧ (p.Set crc ps).httpGetters.get
              (((consistenthash.New crc defaultReplicas none).Add ps).Get key)
            = some { baseURL :=
                ((consistenthash.New crc defaultReplicas none).Add ps).Get key ++ p.basePath })
    ∧ (ps = [] → (p.Set crc ps).PickPeer key = Outcome.ret (none, false)) := by
  have hpick : (p.Set crc ps).PickPeer key
      = if ((consistenthash.New crc defaultReplicas none).Add ps).Get key ≠ []
          ∧ ((consistenthash.New crc defaultReplicas none).Add ps).Get key ≠ p.self then
          Outcome.ret ((p.Set crc ps).httpGetters.get
            (((consistenthash.New crc defaultReplicas none).Add ps).Get key), true)
        else Outcome.ret (none, false) := rfl
  refine ⟨rfl, ?_, ?_, ?_⟩
  · intro h
    rw [hpick, if_neg]
    intro hn
    rcases h with h | h
    · exact hn.1 h
    · exact hn.2 h
  · intro h
    refine ⟨by rw [hpick, if_pos h], ?_⟩
    rw [HTTPPool.Set_httpGetters_get]
    have hown := consistenthash.Get_owner _ ps
      (consistenthash.ownedBy_New_Add crc defaultReplicas none ps) key
    rcases hown with h0 | hmem
    · exact absurd h0 h.1
    · rw [if_pos hmem]
  · intro hps
    subst hps
    rw [hpick, if_neg]
    intro hn
    exact hn.1 (consistenthash.Get_of_no_peers crc defaultReplicas none key)

set_option maxRecDepth 100000 in
/-- An instance of C7 on the pool of node 8001 with the nodes 8001 and 8002: the
key "Tom" is owned by the node itself and is not picked, the key "Sam" is owned by
node 8002 and its client is bound to "http://localhost:8002/_mycache/"; with no
peers at all nothing is picked. -/
theorem C7_PickPeer_after_Set_witness :
    samplePool.PickPeer (lit "Tom") = Outcome.ret (none, false)
    ∧ samplePool.PickPeer (lit "Sam")
        = Outcome.ret (some { baseURL := lit "http://localhost:8002/_mycache/" }, true)
    ∧ (pool8001.Set toyHash []).PickPeer (lit "Sam") = Outcome.ret (none, false) := by
  have hTom := (C7_PickPeer_after_Set toyHash pool8001
    [lit "http://localhost:8001", lit "http://localhost:8002"] (lit "Tom")).2.1
      (Or.inr (by decide))
  have hSam := (C7_PickPeer_after_Set toyHash pool8001
    [lit "http://localhost:8001", lit "http://localhost:8002"] (lit "Sam")).2.2.1
      ⟨by decide, by decide⟩
  have hNone := (C7_PickPeer_after_Set toyHash pool8001 [] (lit "Sam")).2.2.2 rfl
  refine ⟨hTom, ?_, hNone⟩
  have h1 : samplePool.PickPeer (lit "Sam")
      = Outcome.ret (some { baseURL :=
          ((consistenthash.New toyHash defaultReplicas none).Add
            [lit "http://localhost:8001", lit "http://localhost:8002"]).Get (lit "Sam")
            ++ pool8001.basePath }, true) := by
    rw [← hSam.2]
    exact hSam.1
  rw [h1]
  decide

/-- C10: for every pool and every list ps of peer ids, after Set(ps) the ring of the
pool is a new ring of 50 replicas with the default hash to which ps has been
added: its slot vector is the sorted list of the 50 slots of each peer of ps (so each
of them is on the ring), every slot is recorded with a peer of ps and every owner it gives is a peer of ps or the
empty string. The client map has an entry exactly for the peers of ps, one for
each, bound to peer + basePath. Ring and client map are the same whatever the ring
and clients of the pool were before; self and basePath are as before. -/
theorem C10_Set_replaces_ring_and_clients (crc : consistenthash.Hash) (p : HTTPPool)
    (ps : List GoString) :
    (p.Set crc ps).peers = some ((consistenthash.New crc 50 none).Add ps)
    ∧ ((consistenthash.New crc 50 none).Add ps).replicas = 50
    ∧ ((consistenthash.New crc 50 none).Add ps).hash = crc
    ∧ ((consistenthash.New crc 50 none).Add ps).keys
        = (ps.flatMap (consistenthash.slots crc 50)).insertionSort (fun a b => a ≤ b)
    ∧ (∀ peer, peer ∈ ps → ∀ i, i < 50 →
        crc (strconv.Itoa i ++ peer) ∈ ((consistenthash.New crc 50 none).Add ps).keys)
    ∧ (∀ slot, slot ∈ ((consistenthash.New crc 50 none).Add ps).keys →
        ∃ peer, peer ∈ ps
          ∧ ((consistenthash.New crc 50 none).Add ps).hashMap.get slot = some peer)
    ∧ (∀ key, ((consistenthash.New crc 50 none).Add ps).Get key = []
        ∨ ((consistenthash.New crc 50 none).Add ps).Get key ∈ ps)
    ∧ (∀ x, (p.Set crc ps).httpGetters.get x
        = if x ∈ ps then some { baseURL := x ++ p.basePath } else none)
    ∧ (∀ x, x ∈ (p.Set crc ps).httpGetters.map Prod.fst ↔ x ∈ ps)
    ∧ ((p.Set crc ps).httpGetters.map Prod.fst).Nodup
    ∧ (p.Set crc ps).self = p.self
    ∧ (p.Set crc ps).basePath = p.basePath
    ∧ ∀ p2 : HTTPPool, p2.basePath = p.basePath →
        (p2.Set crc ps).peers = (p.Set crc ps).peers
        ∧ (p2.Set crc ps).httpGetters = (p.Set crc ps).httpGetters := by
  have hown := consistenthash.ownedBy_New_Add crc 50 none ps
  have hkeys := (consistenthash.foldl_addPeer ps (consistenthash.New crc 50 none)).2.2
  have hsorted : ((consistenthash.New crc 50 none).Add ps).keys
      = (ps.flatMap (consistenthash.slots crc 50)).insertionSort (fun a b => a ≤ b) := by
    simp only [consistenthash.Map.Add]
    rw [hkeys]
    simp [consistenthash.New]
  refine ⟨rfl, ?_, ?_, hsorted, ?_, ?_, ?_, ?_, ?_, ?_, rfl, rfl, ?_⟩
  · exact (consistenthash.foldl_addPeer ps (consistenthash.New crc 50 none)).2.1
  · exact (consistenthash.foldl_addPeer ps (consistenthash.New crc 50 none)).1
  · intro peer hpeer i hi
    rw [hsorted, (List.perm_insertionSort _ _).mem_iff, List.mem_flatMap]
    refine ⟨peer, hpeer, ?_⟩
    unfold consistenthash.slots
    exact List.mem_map.mpr ⟨i, List.mem_range.mpr (by simpa using hi), rfl⟩
  · intro slot hslot
    obtain ⟨peer, hpeer⟩ := hown.2 slot hslot
    exact ⟨peer, hown.1 slot peer hpeer, hpeer⟩
  · exact consistenthash.Get_owner _ ps hown
  · exact HTTPPool.Set_httpGetters_get crc p ps
  · intro x
    have hget := HTTPPool.Set_httpGetters_get crc p ps x
    constructor
    · intro hx
      by_contra hnot
      rw [if_neg hnot] at hget
      obtain ⟨e, he, hex⟩ := List.mem_map.mp hx
      unfold GoMap.get at hget
      rw [Option.map_eq_none', List.find?_eq_none] at hget
      have := hget e he
      simp [hex] at this
    · intro hx
      rw [if_pos hx] at hget
      unfold GoMap.get at hget
      obtain ⟨e, he, _⟩ := Option.map_eq_some'.mp hget
      have h1 := List.find?_some he
      have h2 := List.mem_of_find?_eq_some he
      simp at h1
      exact List.mem_map.mpr ⟨e, h2, h1⟩
  · exact GoMap.foldl_set_nodup _ ps [] (by simp)
  · intro p2 hp2
    refine ⟨rfl, ?_⟩
    unfold HTTPPool.Set
    simp only [hp2]

set_option maxRecDepth 100000 in
/-- An instance of C10: after Set with the nodes 8001 and 8002 the ring has 100
slots and the client map the two entries of these nodes; a later Set with node 8003
alone leaves one client, that of node 8003, and a ring of 50 slots that gives node
8003 as the owner of the key "Sam". -/
theorem C10_Set_replaces_ring_and_clients_witness :
    (samplePool.peers.map (fun ring => ring.keys.length)) = some 100
    ∧ samplePool.httpGetters
        = [(lit "http://localhost:8001", { baseURL := lit "http://localhost:8001/_mycache/" }),
           (lit "http://localhost:8002", { baseURL := lit "http://localhost:8002/_mycache/" })]
    ∧ (samplePool.Set toyHash [lit "http://localhost:8003"]).httpGetters
        = [(lit "http://localhost:8003", { baseURL := lit "http://localhost:8003/_mycache/" })]
    ∧ ((samplePool.Set toyHash [lit "http://localhost:8003"]).peers.map
        (fun ring => (ring.keys.length, ring.Get (lit "Sam"))))
        = some (50, lit "http://localhost:8003") := by
  have h := C10_Set_replaces_ring_and_clients toyHash samplePool [lit "http://localhost:8003"]
  refine ⟨by decide, by decide, by decide, ?_⟩
  rw [h.1]
  decide

end mycache
